import Mathlib

/-!
Verification of the Context9 Repository Cache and Access Engine.

This file gives a shallow embedding, in Lean 4, of the parts of the
`context9` code base that its specification talks about:

* `src/context9/mcp_server/url_parser.py` — the `remotedoc://` URL parser
  (`parse_remotedoc_url`, `normalize_path`, `is_valid_path`);
* `src/context9/mcp_server/markdown/markdown_rewriter.py` — the Markdown
  link rewriter (`rewrite_relative_paths` and its helpers);
* `src/context9/mcp_server/client/github_client/github_client.py` — the
  authorization / read / sync / webhook logic of `GitHubClient`
  (`read_doc`, `can_access_repository`, `_sync_repository`,
  `handle_github_webhook`).

Python strings are modelled as `List Char`; Python functions become
executable Lean functions; the process environment (database rows, the
filesystem, subprocess results, HTTP requests) is passed explicitly as
records of oracles.  All definitions follow the Python source line by
line; comments point at the corresponding source lines.
-/

namespace Context9

/-- Python strings are modelled as lists of characters. -/
abbrev Str := List Char

/-- ASCII whitespace, as recognised by Python's `str.strip()` and the
regex class `\s` (restricted to the ASCII range, which is all the code
and spec exercise). -/
def pyIsSpace (c : Char) : Bool :=
  c == ' ' || c == '\t' || c == '\n' || c == '\r' || c == '\x0b' || c == '\x0c'

/-- Python `s.strip()`: remove leading and trailing whitespace. -/
def pyStrip (s : Str) : Str :=
  ((s.dropWhile pyIsSpace).reverse.dropWhile pyIsSpace).reverse

/-- Python `s.strip("/")`: remove leading and trailing `/` characters
(`url_parser.py` line 75). -/
def stripSlashes (s : Str) : Str :=
  ((s.dropWhile (fun c => c == '/')).reverse.dropWhile (fun c => c == '/')).reverse

/-- Python `re.sub(r"/+", "/", s)`: collapse runs of slashes
(`url_parser.py` line 78). -/
def collapseSlashes : Str → Str
  | [] => []
  | [c] => [c]
  | c1 :: c2 :: rest =>
    if c1 == '/' && c2 == '/' then collapseSlashes (c2 :: rest)
    else c1 :: collapseSlashes (c2 :: rest)

/-- Python `s.split("/")`: note that `"".split("/") = [""]`. -/
def splitOnSlash : Str → List Str
  | [] => [[]]
  | c :: rest =>
    if c == '/' then [] :: splitOnSlash rest
    else
      match splitOnSlash rest with
      | seg :: segs => (c :: seg) :: segs
      | [] => [[c]]

/-- Python `"/".join(parts)`. -/
def joinSlash : List Str → Str
  | [] => []
  | s :: rest =>
    match rest with
    | [] => s
    | _ :: _ => s ++ '/' :: joinSlash rest

/-- The segment-normalisation loop shared by `url_parser.normalize_path`
(lines 81-89) and `markdown_rewriter.resolve_relative_path`
(lines 103-111): `.` is dropped, `..` pops the accumulated stack when it
is non-empty and is discarded otherwise, empty segments are dropped.
`acc` is the accumulated stack in reverse order. -/
def normalizeStack : List Str → List Str → List Str
  | [], acc => acc.reverse
  | part :: rest, acc =>
    if part == ['.'] then normalizeStack rest acc
    else if part == ['.', '.'] then normalizeStack rest acc.tail
    else if part == ([] : Str) then normalizeStack rest acc
    else normalizeStack rest (part :: acc)

/-- `url_parser.normalize_path` (lines 64-91): strip outer slashes,
collapse slash runs, resolve `.` / `..` segments lexically, re-join. -/
def normalize_path (path : Str) : Str :=
  joinSlash (normalizeStack (splitOnSlash (collapseSlashes (stripSlashes path))) [])

/-- Substring test, modelling Python's `pat in s`. -/
def hasInfix (pat : Str) : Str → Bool
  | [] => pat.isEmpty
  | c :: rest => pat.isPrefixOf (c :: rest) || hasInfix pat rest

/-- The literal `".."`. -/
def dotdotStr : Str := ['.', '.']

/-- `url_parser.is_valid_path` (lines 94-121): non-empty, no `..`
substring, no leading `/`, none of `\x00`, `\r`, `\n`. -/
def is_valid_path (path : Str) : Bool :=
  if path.isEmpty then false
  else if hasInfix dotdotStr path then false
  else if ['/'].isPrefixOf path then false
  else if path.contains '\x00' || path.contains '\r' || path.contains '\n' then false
  else true

/-- Hex digit test for percent-decoding. -/
def isHexDigitChar (c : Char) : Bool :=
  c.isDigit || ('a' ≤ c && c ≤ 'f') || ('A' ≤ c && c ≤ 'F')

/-- Value of a hex digit. -/
def hexVal (c : Char) : Nat :=
  if c.isDigit then c.toNat - '0'.toNat
  else if 'a' ≤ c && c ≤ 'f' then c.toNat - 'a'.toNat + 10
  else c.toNat - 'A'.toNat + 10

/-- Modelled from the spec: "Percent-encoded path components are decoded
once before normalization" (spec §6).  The source delegates this step to
CPython's `urllib.parse.unquote`, which is not part of this repository;
it is modelled here as single-pass decoding of `%XX` hex escapes (a `%`
not followed by two hex digits is kept verbatim, as in CPython).  Every
claim proved below only exercises percent-free inputs, on which the
decoder is the identity. -/
def unquoteF : Nat → Str → Str
  | _, [] => []
  | 0, s => s
  | Nat.succ n, c :: rest =>
    if c == '%' then
      match rest with
      | a :: b :: rest2 =>
        if isHexDigitChar a && isHexDigitChar b then
          Char.ofNat (16 * hexVal a + hexVal b) :: unquoteF n rest2
        else '%' :: unquoteF n (a :: b :: rest2)
      | _ => c :: unquoteF n rest
    else c :: unquoteF n rest

/-- Entry point of the decoder: the fuel `s.length` bounds the scan (each
step consumes at least one character, so the fuel is never exhausted). -/
def unquote (s : Str) : Str := unquoteF s.length s

/-- The error cases of `url_parser.parse_remotedoc_url`; the Python code
raises `URLParseError` with a message, modelled here as a tag naming the
failing check. -/
inductive URLParseError where
  | emptyUrl      -- "URL cannot be empty" (line 31)
  | badScheme     -- "must start with remotedoc" (line 38)
  | emptyBody     -- "URL must include a file path" (line 46)
  | invalidPath   -- "Invalid file path" (line 59)
deriving DecidableEq, Repr

instance {ε α : Type} [DecidableEq ε] [DecidableEq α] : DecidableEq (Except ε α) := fun x y =>
  match x, y with
  | .ok a, .ok b =>
    if h : a = b then .isTrue (h ▸ rfl) else .isFalse (fun hh => h (Except.ok.inj hh))
  | .error a, .error b =>
    if h : a = b then .isTrue (h ▸ rfl) else .isFalse (fun hh => h (Except.error.inj hh))
  | .ok _, .error _ => .isFalse (fun hh => Except.noConfusion hh)
  | .error _, .ok _ => .isFalse (fun hh => Except.noConfusion hh)

/-- The scheme literal `"remotedoc://"`. -/
def remotedocScheme : Str := "remotedoc://".toList

/-- `url_parser.parse_remotedoc_url` (lines 17-61): reject empty input,
strip outer whitespace, require the `remotedoc://` scheme, take the body
after the scheme, require it non-empty, percent-decode it, normalise it,
and validate the result. -/
def parse_remotedoc_url (url : Str) : Except URLParseError Str :=
  if url.isEmpty then .error .emptyUrl
  else
    let url := pyStrip url
    if remotedocScheme.isPrefixOf url then
      let path := url.drop 12
      if path.isEmpty then .error .emptyBody
      else
        let path := unquote path
        let path := normalize_path path
        if is_valid_path path then .ok path
        else .error .invalidPath
    else .error .badScheme

/-! ### Basic lemmas about the string helpers -/

/-- `splitOnSlash` never returns the empty list. -/
theorem splitOnSlash_ne_nil (s : Str) : splitOnSlash s ≠ [] := by
  induction s with
  | nil => simp [splitOnSlash]
  | cons c rest ih =>
    simp only [splitOnSlash]
    split
    · simp
    · match h : splitOnSlash rest with
      | [] => exact absurd h ih
      | seg :: segs => simp

/-- Every segment produced by `splitOnSlash` is slash-free. -/
theorem splitOnSlash_no_slash (s : Str) :
    ∀ q ∈ splitOnSlash s, ∀ c ∈ q, c ≠ '/' := by
  induction s with
  | nil => intro q hq; simp [splitOnSlash] at hq; simp [hq]
  | cons c rest ih =>
    intro q hq
    simp only [splitOnSlash] at hq
    by_cases hc : c = '/'
    · simp [hc] at hq
      rcases hq with h | h
      · simp [h]
      · exact ih q h
    · rw [if_neg (by simp [hc])] at hq
      match h : splitOnSlash rest with
      | [] => exact absurd h (splitOnSlash_ne_nil rest)
      | seg :: segs =>
        rw [h] at hq
        rcases List.mem_cons.mp hq with h1 | h1
        · intro d hd
          rw [h1] at hd
          rcases (by simpa using hd : d = c ∨ d ∈ seg) with h2 | h2
          · simpa [h2] using hc
          · exact ih seg (by simp [h]) d h2
        · exact ih q (by simp [h, h1])

/-- `splitOnSlash` of a slash-free string is the singleton list. -/
theorem splitOnSlash_of_no_slash (s : Str) (h : ∀ c ∈ s, c ≠ '/') :
    splitOnSlash s = [s] := by
  induction s with
  | nil => simp [splitOnSlash]
  | cons c rest ih =>
    have hc : c ≠ '/' := h c (by simp)
    simp only [splitOnSlash]
    rw [if_neg (by simp [hc])]
    rw [ih (fun d hd => h d (by simp [hd]))]

/-- `splitOnSlash` distributes over a separator following a slash-free prefix. -/
theorem splitOnSlash_append (s t : Str) (h : ∀ c ∈ s, c ≠ '/') :
    splitOnSlash (s ++ '/' :: t) = s :: splitOnSlash t := by
  induction s with
  | nil => simp [splitOnSlash]
  | cons c rest ih =>
    have hc : c ≠ '/' := h c (by simp)
    simp only [List.cons_append, splitOnSlash]
    rw [if_neg (by simp [hc])]
    simp only [List.append_eq]
    rw [ih (fun d hd => h d (by simp [hd]))]

/-- `joinSlash` of a cons with a non-empty tail. -/
theorem joinSlash_cons (s : Str) (rest : List Str) (h : rest ≠ []) :
    joinSlash (s :: rest) = s ++ '/' :: joinSlash rest := by
  match rest with
  | [] => exact absurd rfl h
  | r :: rs => rfl

/-- `joinSlash` of a non-empty list of non-empty parts is non-empty. -/
theorem joinSlash_ne_nil (parts : List Str) (hne : parts ≠ [])
    (hp : ∀ p ∈ parts, p ≠ []) : joinSlash parts ≠ [] := by
  match parts with
  | [] => exact absurd rfl hne
  | [s] => simpa [joinSlash] using hp s (by simp)
  | s :: r :: rs =>
    rw [joinSlash_cons s (r :: rs) (by simp)]
    have := hp s (by simp)
    intro hcontra
    rcases List.append_eq_nil.mp hcontra with ⟨h1, h2⟩
    exact this h1

/-- Head of a `joinSlash`. -/
theorem joinSlash_head? (s : Str) (rest : List Str) (hs : s ≠ []) :
    (joinSlash (s :: rest)).head? = s.head? := by
  match rest with
  | [] => rfl
  | r :: rs =>
    rw [joinSlash_cons s (r :: rs) (by simp)]
    match s with
    | [] => exact absurd rfl hs
    | c :: cs => rfl

/-- Last element of a `joinSlash` is the last element of the last part. -/
theorem joinSlash_getLast? (parts : List Str) (hne : parts ≠ [])
    (hp : ∀ p ∈ parts, p ≠ []) :
    (joinSlash parts).getLast? = (parts.getLast hne).getLast? := by
  match parts with
  | [s] => simp [joinSlash]
  | s :: r :: rs =>
    rw [joinSlash_cons s (r :: rs) (by simp)]
    have hrec := joinSlash_getLast? (r :: rs) (by simp)
      (fun p hq => hp p (by simp [hq]))
    have hjoin_ne : joinSlash (r :: rs) ≠ [] :=
      joinSlash_ne_nil (r :: rs) (by simp) (fun p hq => hp p (by simp [hq]))
    obtain ⟨v, hv⟩ := Option.isSome_iff_exists.mp
      (List.getLast?_isSome.mpr hjoin_ne)
    rw [List.getLast?_append]
    rw [show ('/' :: joinSlash (r :: rs)) = ['/'] ++ joinSlash (r :: rs) from rfl]
    rw [List.getLast?_append, hv]
    simp only [Option.or_some]
    rw [hv] at hrec
    rw [hrec]
    simp [List.getLast_cons]

/-- Characters of a `joinSlash` come from the parts or are `/`. -/
theorem mem_joinSlash (parts : List Str) (c : Char) (h : c ∈ joinSlash parts) :
    c = '/' ∨ ∃ p ∈ parts, c ∈ p := by
  match parts with
  | [] => simp [joinSlash] at h
  | [s] => exact Or.inr ⟨s, by simp, by simpa [joinSlash] using h⟩
  | s :: r :: rs =>
    rw [joinSlash_cons s (r :: rs) (by simp)] at h
    rcases List.mem_append.mp h with h1 | h1
    · exact Or.inr ⟨s, by simp, h1⟩
    · rcases List.mem_cons.mp h1 with h2 | h2
      · exact Or.inl h2
      · rcases mem_joinSlash (r :: rs) c h2 with h3 | ⟨p, hp, hcp⟩
        · exact Or.inl h3
        · exact Or.inr ⟨p, by simp [List.mem_cons.mp hp], hcp⟩

/-- Round trip: splitting a join of slash-free parts gives the parts back. -/
theorem splitOnSlash_joinSlash (parts : List Str) (hne : parts ≠ [])
    (h : ∀ p ∈ parts, ∀ c ∈ p, c ≠ '/') :
    splitOnSlash (joinSlash parts) = parts := by
  match parts with
  | [s] => simpa [joinSlash] using splitOnSlash_of_no_slash s (h s (by simp))
  | s :: r :: rs =>
    rw [joinSlash_cons s (r :: rs) (by simp)]
    rw [splitOnSlash_append s (joinSlash (r :: rs)) (h s (by simp))]
    rw [splitOnSlash_joinSlash (r :: rs) (by simp)
      (fun p hp => h p (by simp [List.mem_cons.mp hp]))]

/-- No two adjacent characters of `s` are `a` followed by `b`. -/
def noPair (a b : Char) : Str → Bool
  | [] => true
  | [_] => true
  | c1 :: c2 :: rest => !(c1 == a && c2 == b) && noPair a b (c2 :: rest)

/-- The pair flag of a two-character step, in propositional form. -/
theorem pairStep_eq_false (a b c d : Char) (h : ¬(c = a ∧ d = b)) :
    (c == a && d == b) = false := by
  by_cases hca : c = a
  · by_cases hdb : d = b
    · exact absurd ⟨hca, hdb⟩ h
    · simp [beq_eq_false_iff_ne.mpr hdb]
  · simp [beq_eq_false_iff_ne.mpr hca]

theorem noPair_cons_cons (a b c d : Char) (rest : Str) :
    noPair a b (c :: d :: rest)
      = (!(c == a && d == b) && noPair a b (d :: rest)) := rfl

theorem noPair_tail (a b c : Char) (s : Str) (h : noPair a b (c :: s) = true) :
    noPair a b s = true := by
  match s with
  | [] => rfl
  | d :: rest =>
    rw [noPair_cons_cons] at h
    exact (Bool.and_eq_true_iff.mp h).2

/-- `hasInfix [a, b]` is the negation of the pairwise scan `noPair a b`. -/
theorem hasInfix_pair_false_iff (a b : Char) (s : Str) :
    hasInfix [a, b] s = false ↔ noPair a b s = true := by
  induction s with
  | nil => simp [hasInfix, noPair]
  | cons c rest ih =>
    match rest with
    | [] => simp [hasInfix, noPair, List.isPrefixOf]
    | d :: rest2 =>
      have hd : hasInfix [a, b] (c :: d :: rest2)
          = ((a == c && (b == d && true)) || hasInfix [a, b] (d :: rest2)) := by
        simp only [hasInfix, List.isPrefixOf]
      rw [hd, noPair_cons_cons, Bool.or_eq_false_iff, Bool.and_eq_true_iff, ← ih]
      have hflags : ((a == c && (b == d && true)) = false)
          ↔ ((!(c == a && d == b)) = true) := by
        by_cases h1 : a = c
        · by_cases h2 : b = d
          · subst h1; subst h2; simp
          · subst h1
            simp [beq_eq_false_iff_ne.mpr h2,
              beq_eq_false_iff_ne.mpr (Ne.symm h2)]
        · simp [beq_eq_false_iff_ne.mpr h1,
            beq_eq_false_iff_ne.mpr (Ne.symm h1)]
      rw [hflags]

theorem noPair_append (a b : Char) (s t : Str)
    (hs : noPair a b s = true) (ht : noPair a b t = true)
    (hbd : ∀ x y, s.getLast? = some x → t.head? = some y → ¬(x = a ∧ y = b)) :
    noPair a b (s ++ t) = true := by
  match s with
  | [] => simpa using ht
  | [c] =>
    match t with
    | [] => simpa using hs
    | d :: rest =>
      have : ([c] ++ d :: rest) = c :: d :: rest := rfl
      rw [this, noPair_cons_cons, Bool.and_eq_true_iff]
      refine ⟨?_, ht⟩
      have hflag := pairStep_eq_false a b c d (hbd c d (by simp) (by simp))
      simp [hflag]
  | c1 :: c2 :: s' =>
    have : ((c1 :: c2 :: s') ++ t) = c1 :: ((c2 :: s') ++ t) := rfl
    rw [this]
    have hrec := noPair_append a b (c2 :: s') t (noPair_tail a b c1 _ hs) ht
      (fun x y hx hy => hbd x y (by simpa using hx) hy)
    have hstep : (!(c1 == a && c2 == b)) = true := by
      rw [noPair_cons_cons] at hs
      exact (Bool.and_eq_true_iff.mp hs).1
    have hshape : ((c2 :: s') ++ t) = c2 :: (s' ++ t) := rfl
    rw [hshape] at hrec ⊢
    rw [noPair_cons_cons, Bool.and_eq_true_iff]
    exact ⟨hstep, hrec⟩

/-- Pair freedom of a slash-join: no `a`-`b` adjacency appears in the joined
string provided none appears inside a part, and the boundary slashes cannot
complete a pair. -/
theorem noPair_joinSlash (a b : Char) (parts : List Str)
    (hp : ∀ p ∈ parts, p ≠ [])
    (hnp : ∀ p ∈ parts, noPair a b p = true)
    (hlast : ∀ p ∈ parts, ∀ x, p.getLast? = some x → ¬(x = a ∧ '/' = b))
    (hhead : ∀ p ∈ parts, ∀ y, p.head? = some y → ¬('/' = a ∧ y = b)) :
    noPair a b (joinSlash parts) = true := by
  match parts with
  | [] => rfl
  | [s] => simpa [joinSlash] using hnp s (by simp)
  | s :: r :: rs =>
    rw [joinSlash_cons s (r :: rs) (by simp)]
    have hrec := noPair_joinSlash a b (r :: rs)
      (fun p hq => hp p (by simp [List.mem_cons.mp hq]))
      (fun p hq => hnp p (by simp [List.mem_cons.mp hq]))
      (fun p hq => hlast p (by simp [List.mem_cons.mp hq]))
      (fun p hq => hhead p (by simp [List.mem_cons.mp hq]))
    refine noPair_append a b s ('/' :: joinSlash (r :: rs)) (hnp s (by simp)) ?_ ?_
    · match h : joinSlash (r :: rs) with
      | [] => rfl
      | d :: rest =>
        have hdr : (joinSlash (r :: rs)).head? = r.head? :=
          joinSlash_head? r rs (hp r (by simp))
        rw [h] at hdr
        have hdflag := pairStep_eq_false a b '/' d
          (fun hh => hhead r (by simp) d hdr.symm ⟨hh.1, hh.2⟩)
        rw [noPair_cons_cons, Bool.and_eq_true_iff]
        exact ⟨by simp [hdflag], by rw [← h]; exact hrec⟩
    · intro x y hx hy
      simp only [List.head?_cons, Option.some.injEq] at hy
      intro hcontra
      exact hlast s (by simp) x hx ⟨hcontra.1, by rw [hy]; exact hcontra.2⟩

/-- `collapseSlashes` is the identity on strings without adjacent slashes. -/
theorem collapseSlashes_eq_self (s : Str) (h : noPair '/' '/' s = true) :
    collapseSlashes s = s := by
  match s with
  | [] => rfl
  | [c] => rfl
  | c1 :: c2 :: rest =>
    rw [noPair_cons_cons] at h
    have h1 : (c1 == '/' && c2 == '/') = false := by
      have h2 := (Bool.and_eq_true_iff.mp h).1
      exact Bool.eq_false_iff.mpr (fun hb => by simp [hb] at h2)
    simp only [collapseSlashes]
    rw [if_neg (by simp [h1])]
    rw [collapseSlashes_eq_self (c2 :: rest) (Bool.and_eq_true_iff.mp h).2]

/-- `dropWhile` is the identity when the head fails the predicate. -/
theorem dropWhile_eq_self_of_head (p : Char → Bool) (s : Str)
    (h : ∀ c, s.head? = some c → p c = false) : s.dropWhile p = s := by
  match s with
  | [] => rfl
  | c :: rest => simp [List.dropWhile_cons, h c rfl]

/-- `stripSlashes` is the identity when neither end is a slash. -/
theorem stripSlashes_eq_self (s : Str)
    (h1 : ∀ c, s.head? = some c → c ≠ '/')
    (h2 : ∀ c, s.getLast? = some c → c ≠ '/') : stripSlashes s = s := by
  unfold stripSlashes
  rw [dropWhile_eq_self_of_head _ s
    (fun c hc => by simpa using beq_eq_false_iff_ne.mpr (h1 c hc))]
  rw [dropWhile_eq_self_of_head _ s.reverse
    (fun c hc => by
      simpa using beq_eq_false_iff_ne.mpr (h2 c (by rwa [List.head?_reverse] at hc)))]
  exact List.reverse_reverse s

/-- `pyStrip` is the identity when neither end is whitespace. -/
theorem pyStrip_eq_self (s : Str)
    (h1 : ∀ c, s.head? = some c → pyIsSpace c = false)
    (h2 : ∀ c, s.getLast? = some c → pyIsSpace c = false) : pyStrip s = s := by
  unfold pyStrip
  rw [dropWhile_eq_self_of_head _ s h1]
  rw [dropWhile_eq_self_of_head _ s.reverse
    (fun c hc => h2 c (by rwa [List.head?_reverse] at hc))]
  exact List.reverse_reverse s

/-- The fuelled percent decoder is the identity on percent-free strings. -/
theorem unquoteF_eq_self (n : Nat) (s : Str) (hn : s.length ≤ n)
    (h : ∀ c ∈ s, c ≠ '%') : unquoteF n s = s := by
  induction n generalizing s with
  | zero =>
    match s with
    | [] => rfl
    | c :: rest => rfl
  | succ n ih =>
    match s with
    | [] => rfl
    | c :: rest =>
      have hc : c ≠ '%' := h c (by simp)
      simp only [unquoteF]
      rw [if_neg (by simp [hc])]
      rw [ih rest (by simpa using Nat.le_of_succ_le_succ hn)
        (fun x hx => h x (by simp [hx]))]

/-- The percent decoder is the identity on percent-free strings. -/
theorem unquote_eq_self (s : Str) (h : ∀ c ∈ s, c ≠ '%') : unquote s = s :=
  unquoteF_eq_self s.length s (Nat.le_refl _) h

theorem mem_of_headEq (l : Str) (c : Char) (h : l.head? = some c) : c ∈ l := by
  match l with
  | [] => simp at h
  | x :: xs =>
    simp only [List.head?_cons, Option.some.injEq] at h
    simp [← h]

theorem mem_of_getLastEq (l : Str) (c : Char) (h : l.getLast? = some c) : c ∈ l := by
  obtain ⟨hne, hc⟩ := List.mem_getLast?_eq_getLast
    (show c ∈ l.getLast? by simp [h, Option.mem_def])
  rw [hc]
  exact List.getLast_mem hne

/-- `noPair` holds whenever the first pair component never occurs. -/
theorem noPair_of_not_mem (a b : Char) (s : Str) (h : ∀ c ∈ s, c ≠ a) :
    noPair a b s = true := by
  match s with
  | [] => rfl
  | [c] => rfl
  | c1 :: c2 :: rest =>
    rw [noPair_cons_cons, Bool.and_eq_true_iff]
    refine ⟨by simp [beq_eq_false_iff_ne.mpr (h c1 (by simp))], ?_⟩
    exact noPair_of_not_mem a b (c2 :: rest) (fun c hc => h c (by simp [hc]))

/-- A segment is regular when it is non-empty and not a dot segment. -/
def RegSeg (p : Str) : Prop := p ≠ [] ∧ p ≠ ['.'] ∧ p ≠ ['.', '.']

instance (p : Str) : Decidable (RegSeg p) := by unfold RegSeg; infer_instance

/-! ### Lemmas about `normalizeStack` -/

theorem normalizeStack_mem (parts acc : List Str) (s : Str)
    (h : s ∈ normalizeStack parts acc) : s ∈ parts ∨ s ∈ acc := by
  match parts with
  | [] =>
    simp only [normalizeStack] at h
    exact Or.inr (by simpa using h)
  | part :: rest =>
    simp only [normalizeStack] at h
    split at h
    · rcases normalizeStack_mem rest acc s h with h1 | h1
      · exact Or.inl (by simp [h1])
      · exact Or.inr h1
    · split at h
      · rcases normalizeStack_mem rest acc.tail s h with h1 | h1
        · exact Or.inl (by simp [h1])
        · exact Or.inr (List.mem_of_mem_tail h1)
      · split at h
        · rcases normalizeStack_mem rest acc s h with h1 | h1
          · exact Or.inl (by simp [h1])
          · exact Or.inr h1
        · rcases normalizeStack_mem rest (part :: acc) s h with h1 | h1
          · exact Or.inl (by simp [h1])
          · rcases List.mem_cons.mp h1 with h2 | h2
            · exact Or.inl (by simp [h2])
            · exact Or.inr h2

theorem normalizeStack_regular (parts acc : List Str)
    (hacc : ∀ s ∈ acc, RegSeg s) :
    ∀ s ∈ normalizeStack parts acc, RegSeg s := by
  match parts with
  | [] =>
    intro s hs
    simp only [normalizeStack] at hs
    exact hacc s (by simpa using hs)
  | part :: rest =>
    intro s hs
    simp only [normalizeStack] at hs
    split at hs
    · exact normalizeStack_regular rest acc hacc s hs
    · split at hs
      · exact normalizeStack_regular rest acc.tail
          (fun q hq => hacc q (List.mem_of_mem_tail hq)) s hs
      · split at hs
        · exact normalizeStack_regular rest acc hacc s hs
        · rename_i h1 h2 h3
          refine normalizeStack_regular rest (part :: acc) ?_ s hs
          intro q hq
          rcases List.mem_cons.mp hq with h4 | h4
          · subst h4
            exact ⟨by simpa using h3, by simpa using h1, by simpa using h2⟩
          · exact hacc q h4

/-- `normalizeStack` is the identity (relative to the accumulator) on lists
of regular segments. -/
theorem normalizeStack_id (parts acc : List Str)
    (h : ∀ p ∈ parts, RegSeg p) :
    normalizeStack parts acc = acc.reverse ++ parts := by
  match parts with
  | [] => simp [normalizeStack]
  | part :: rest =>
    obtain ⟨h1, h2, h3⟩ := h part (by simp)
    simp only [normalizeStack]
    rw [if_neg (by simpa using beq_eq_false_iff_ne.mpr h2)]
    rw [if_neg (by simpa using beq_eq_false_iff_ne.mpr h3)]
    rw [if_neg (by simpa using beq_eq_false_iff_ne.mpr h1)]
    rw [normalizeStack_id rest (part :: acc) (fun p hp => h p (by simp [hp]))]
    simp

/-- Leading `..` segments on an empty stack are discarded. -/
theorem normalizeStack_replicate_dotdot (k : Nat) (parts : List Str) :
    normalizeStack (List.replicate k dotdotStr ++ parts) []
      = normalizeStack parts [] := by
  induction k with
  | zero => simp
  | succ n ih =>
    rw [List.replicate_succ, List.cons_append]
    simp only [normalizeStack]
    rw [if_neg (by decide), if_pos (by decide)]
    simpa using ih

/-! ### Characterisation of `normalize_path` and `parse_remotedoc_url` on
joined segment lists -/

/-- On a join of non-empty slash-free parts, `normalize_path` reduces to the
segment-normalisation of the parts. -/
theorem normalize_path_joinSlash (parts : List Str) (hne : parts ≠ [])
    (hp : ∀ p ∈ parts, p ≠ [])
    (hsf : ∀ p ∈ parts, ∀ c ∈ p, c ≠ '/') :
    normalize_path (joinSlash parts) = joinSlash (normalizeStack parts []) := by
  unfold normalize_path
  rw [stripSlashes_eq_self (joinSlash parts) ?hd ?lst]
  case hd =>
    intro c hc
    match parts, hne with
    | s :: rest, _ =>
      rw [joinSlash_head? s rest (hp s (by simp))] at hc
      exact hsf s (by simp) c (mem_of_headEq _ _ hc)
  case lst =>
    intro c hc
    rw [joinSlash_getLast? parts hne hp] at hc
    exact hsf (parts.getLast hne) (List.getLast_mem hne) c
      (mem_of_getLastEq _ _ hc)
  rw [collapseSlashes_eq_self (joinSlash parts) ?nosl]
  case nosl =>
    refine noPair_joinSlash '/' '/' parts hp ?_ ?_ ?_
    · exact fun p hq => noPair_of_not_mem '/' '/' p (hsf p hq)
    · exact fun p hq x hx => fun hcontra =>
        hsf p hq x (mem_of_getLastEq _ _ hx) hcontra.1
    · exact fun p hq y hy => fun hcontra =>
        hsf p hq y (mem_of_headEq _ _ hy) hcontra.2
  rw [splitOnSlash_joinSlash parts hne hsf]

/-- A segment is URL-safe when it is non-empty, slash-free, percent-free
and free of the characters `is_valid_path` rejects. -/
def SegOK (p : Str) : Prop :=
  p ≠ [] ∧ p ≠ ['.'] ∧ p ≠ ['.', '.'] ∧ hasInfix dotdotStr p = false ∧
    ∀ c ∈ p, c ≠ '/' ∧ c ≠ '%' ∧ c ≠ '\x00' ∧ c ≠ '\r' ∧ c ≠ '\n'

instance (p : Str) : Decidable (SegOK p) := by unfold SegOK; infer_instance

/-- A join of `SegOK` segments passes `is_valid_path`. -/
theorem is_valid_path_joinSlash (parts : List Str) (hne : parts ≠ [])
    (hall : ∀ p ∈ parts, SegOK p) :
    is_valid_path (joinSlash parts) = true := by
  have hp : ∀ p ∈ parts, p ≠ [] := fun p hq => (hall p hq).1
  have hjne : joinSlash parts ≠ [] := joinSlash_ne_nil parts hne hp
  have hnodd : hasInfix dotdotStr (joinSlash parts) = false := by
    have : hasInfix ['.', '.'] (joinSlash parts) = false := by
      rw [hasInfix_pair_false_iff]
      refine noPair_joinSlash '.' '.' parts hp ?_ ?_ ?_
      · intro p hq
        rw [← hasInfix_pair_false_iff]
        exact (hall p hq).2.2.2.1
      · intro p hq x hx hcontra
        exact absurd hcontra.2 (by decide)
      · intro p hq y hy hcontra
        exact absurd hcontra.1 (by decide)
    exact this
  have hmem : ∀ c ∈ joinSlash parts, c = '/' ∨ ∃ p ∈ parts, c ∈ p :=
    fun c hc => mem_joinSlash parts c hc
  have hhead : ∀ c, (joinSlash parts).head? = some c → c ≠ '/' := by
    intro c hc
    match parts, hne with
    | s :: rest, _ =>
      rw [joinSlash_head? s rest (hp s (by simp))] at hc
      exact ((hall s (by simp)).2.2.2.2 c (mem_of_headEq _ _ hc)).1
  have hnoslash : (['/'] : Str).isPrefixOf (joinSlash parts) = false := by
    match hj : joinSlash parts, hjne with
    | x :: xs, _ =>
      have hx : x ≠ '/' := hhead x (by rw [hj]; rfl)
      simp [List.isPrefixOf, beq_eq_false_iff_ne.mpr (Ne.symm hx)]
  have hnc : ∀ a : Char, a ≠ '/' → (∀ p ∈ parts, ∀ c ∈ p, c ≠ a) →
      (joinSlash parts).contains a = false := by
    intro a ha hpa
    rw [← Bool.not_eq_true, List.contains_eq_any_beq]
    intro hcontra
    obtain ⟨c, hc, hbeq⟩ := List.any_eq_true.mp hcontra
    have hca : a = c := by simpa [beq_iff_eq] using hbeq
    rcases hmem c hc with h1 | ⟨p, hq, hcp⟩
    · exact ha (by rw [hca, h1])
    · exact hpa p hq c hcp hca.symm
  unfold is_valid_path
  rw [if_neg (by simp [hjne]), if_neg (by simp [hnodd]), if_neg (by simp [hnoslash])]
  rw [if_neg]
  simp only [Bool.or_eq_true, not_or]
  refine ⟨⟨?_, ?_⟩, ?_⟩ <;>
    first
    | exact (by
        rw [hnc '\x00' (by decide) (fun p hq c hc => ((hall p hq).2.2.2.2 c hc).2.2.1)]
        simp)
    | exact (by
        rw [hnc '\r' (by decide) (fun p hq c hc => ((hall p hq).2.2.2.2 c hc).2.2.2.1)]
        simp)
    | exact (by
        rw [hnc '\n' (by decide) (fun p hq c hc => ((hall p hq).2.2.2.2 c hc).2.2.2.2)]
        simp)

/-- Evaluation of the parser on a scheme-prefixed join of slash-free,
percent-free segments: the outer checks pass and the result is decided by
validation of the segment-normalised join. -/
theorem parse_remotedoc_url_joinSlash (parts : List Str) (hne : parts ≠ [])
    (hp : ∀ p ∈ parts, p ≠ [])
    (hsf : ∀ p ∈ parts, ∀ c ∈ p, c ≠ '/' ∧ c ≠ '%')
    (hstrip : pyStrip (remotedocScheme ++ joinSlash parts)
      = remotedocScheme ++ joinSlash parts) :
    parse_remotedoc_url (remotedocScheme ++ joinSlash parts)
      = if is_valid_path (joinSlash (normalizeStack parts [])) then
          Except.ok (joinSlash (normalizeStack parts []))
        else Except.error URLParseError.invalidPath := by
  have hjne : joinSlash parts ≠ [] := joinSlash_ne_nil parts hne hp
  unfold parse_remotedoc_url
  rw [if_neg (by simp [remotedocScheme])]
  rw [hstrip]
  rw [if_pos (by
    rw [List.isPrefixOf_iff_prefix]
    exact List.prefix_append _ _)]
  have hdrop : (remotedocScheme ++ joinSlash parts).drop 12 = joinSlash parts := by
    have h12 : remotedocScheme.length = 12 := by decide
    rw [← h12]
    exact List.drop_left _ _
  rw [hdrop]
  rw [if_neg (by simp [hjne])]
  rw [unquote_eq_self (joinSlash parts) (fun c hc => by
    rcases mem_joinSlash parts c hc with h1 | ⟨p, hq, hcp⟩
    · rw [h1]; decide
    · exact (hsf p hq c hcp).2)]
  show (if is_valid_path (normalize_path (joinSlash parts)) = true then
      Except.ok (normalize_path (joinSlash parts))
    else Except.error URLParseError.invalidPath) = _
  rw [normalize_path_joinSlash parts hne hp (fun p hq c hc => (hsf p hq c hc).1)]

/-- Let-free unfolding of the parser, used to case-split its branches. -/
theorem parse_remotedoc_url_eq (url : Str) :
    parse_remotedoc_url url =
      (if url.isEmpty then .error .emptyUrl
       else if remotedocScheme.isPrefixOf (pyStrip url) then
        if ((pyStrip url).drop 12).isEmpty then .error .emptyBody
        else if is_valid_path (normalize_path (unquote ((pyStrip url).drop 12))) then
          .ok (normalize_path (unquote ((pyStrip url).drop 12)))
        else .error .invalidPath
       else .error .badScheme) := rfl

/-- Decomposition of a successful `is_valid_path` check. -/
theorem is_valid_path_true_elim (p : Str) (h : is_valid_path p = true) :
    p ≠ [] ∧ hasInfix dotdotStr p = false ∧
      (['/'] : Str).isPrefixOf p = false ∧ p.contains '\x00' = false ∧
      p.contains '\r' = false ∧ p.contains '\n' = false := by
  unfold is_valid_path at h
  split_ifs at h with h1 h2 h3 h4
  simp only [Bool.or_eq_true, not_or, Bool.not_eq_true] at h4
  refine ⟨?_, Bool.eq_false_iff.mpr h2, Bool.eq_false_iff.mpr h3,
    h4.1.1, h4.1.2, h4.2⟩
  intro hcontra
  exact h1 (by simp [hcontra])

/-! ### Claim theorems for the URL parser -/

/-- Example input for the C10 witness. -/
def exPath10 : Str := "a//b/./../c/".toList

/-- C10: `normalize_path` is idempotent, and its output is canonical: it
neither starts nor ends with `/`, and (when non-empty) all its `/`-split
segments are non-empty and are not `.` or `..`. -/
theorem normalize_path_idempotent_canonical (p : Str) :
    normalize_path (normalize_path p) = normalize_path p ∧
    (normalize_path p).head? ≠ some '/' ∧
    (normalize_path p).getLast? ≠ some '/' ∧
    (normalize_path p ≠ [] →
      ∀ q ∈ splitOnSlash (normalize_path p), q ≠ [] ∧ q ≠ ['.'] ∧ q ≠ ['.', '.']) := by
  set Q := normalizeStack (splitOnSlash (collapseSlashes (stripSlashes p))) [] with hQ
  have hnp : normalize_path p = joinSlash Q := rfl
  have hreg : ∀ s ∈ Q, RegSeg s :=
    normalizeStack_regular _ [] (by simp)
  have hsf : ∀ s ∈ Q, ∀ c ∈ s, c ≠ '/' := by
    intro s hs
    rcases normalizeStack_mem _ [] s hs with h1 | h1
    · exact splitOnSlash_no_slash _ s h1
    · simp at h1
  match hQe : Q with
  | [] =>
    rw [hnp]
    refine ⟨by decide, by decide, by decide, ?_⟩
    intro hcontra
    exact absurd (by decide : joinSlash ([] : List Str) = []) hcontra
  | s :: rest =>
    rw [hnp]
    have hne : s :: rest ≠ [] := by simp
    have hp : ∀ q ∈ s :: rest, q ≠ [] := by
      intro q hq; exact (hreg q (hQe ▸ hq)).1
    have hsf2 : ∀ q ∈ s :: rest, ∀ c ∈ q, c ≠ '/' := by
      intro q hq; exact hsf q (hQe ▸ hq)
    refine ⟨?_, ?_, ?_, ?_⟩
    · rw [normalize_path_joinSlash (s :: rest) hne hp hsf2]
      rw [normalizeStack_id (s :: rest) [] (fun q hq => hreg q (hQe ▸ hq))]
      simp
    · rw [joinSlash_head? s rest (hp s (by simp))]
      intro hcontra
      exact hsf2 s (by simp) '/' (mem_of_headEq _ _ hcontra) rfl
    · rw [joinSlash_getLast? (s :: rest) hne hp]
      intro hcontra
      exact hsf2 _ (List.getLast_mem hne) '/' (mem_of_getLastEq _ _ hcontra) rfl
    · intro _ q hq
      rw [splitOnSlash_joinSlash (s :: rest) hne hsf2] at hq
      exact hreg q (hQe ▸ hq)

/-- C10 witness: the theorem applied at the concrete path `a//b/./../c/`,
with the canonical-form clause instantiated at the segment `a` of the
normalised output `a/c`. -/
theorem normalize_path_idempotent_canonical_witness :
    normalize_path (normalize_path exPath10) = normalize_path exPath10 ∧
    (['a'] ≠ ([] : Str) ∧ ['a'] ≠ ['.'] ∧ ['a'] ≠ ['.', '.']) :=
  ⟨(normalize_path_idempotent_canonical exPath10).1,
   (normalize_path_idempotent_canonical exPath10).2.2.2 (by decide) ['a'] (by decide)⟩

/-- C9: a URL whose body starts with `k` leading `..` segments (more `..`
than accumulated segments) is not rejected: the excess `..` segments are
discarded by normalization and the parser succeeds, returning the path of
the remaining segments, provided those make a valid non-empty path. -/
theorem parse_drops_excess_dotdot (k : Nat) (parts : List Str)
    (hne : parts ≠ []) (hall : ∀ p ∈ parts, SegOK p)
    (hstrip : pyStrip (remotedocScheme ++ joinSlash (List.replicate k dotdotStr ++ parts))
      = remotedocScheme ++ joinSlash (List.replicate k dotdotStr ++ parts)) :
    parse_remotedoc_url
        (remotedocScheme ++ joinSlash (List.replicate k dotdotStr ++ parts))
      = Except.ok (joinSlash parts) := by
  have hp0 : ∀ p ∈ List.replicate k dotdotStr ++ parts, p ≠ [] := by
    intro p hp
    rcases List.mem_append.mp hp with h1 | h1
    · rw [List.eq_of_mem_replicate h1]; decide
    · exact (hall p h1).1
  have hsf0 : ∀ p ∈ List.replicate k dotdotStr ++ parts, ∀ c ∈ p, c ≠ '/' ∧ c ≠ '%' := by
    intro p hp c hc
    rcases List.mem_append.mp hp with h1 | h1
    · rw [List.eq_of_mem_replicate h1] at hc
      rcases (by simpa [dotdotStr] using hc : c = '.') with rfl
      exact ⟨by decide, by decide⟩
    · have := (hall p h1).2.2.2.2 c hc
      exact ⟨this.1, this.2.1⟩
  rw [parse_remotedoc_url_joinSlash _ (by simp [hne]) hp0 hsf0 hstrip]
  rw [normalizeStack_replicate_dotdot]
  rw [normalizeStack_id parts []
    (fun p hp => ⟨(hall p hp).1, (hall p hp).2.1, (hall p hp).2.2.1⟩)]
  simp only [List.reverse_nil, List.nil_append]
  rw [if_pos (is_valid_path_joinSlash parts hne hall)]

/-- C9 witness: `remotedoc://../../../a` parses to `a`. -/
theorem parse_drops_excess_dotdot_witness :
    parse_remotedoc_url
        (remotedocScheme ++ joinSlash (List.replicate 3 dotdotStr ++ [['a']]))
      = Except.ok ['a'] :=
  parse_drops_excess_dotdot 3 [['a']] (by decide) (by decide) (by decide)

/-- The URL of the C2 counterexample. -/
def c2url : Str := "remotedoc://o/r/b/spec.md".toList

/-- The bare path the claim says the parser should return. -/
def c2path : Str := "spec.md".toList

/-- The full body the parser actually returns. -/
def c2full : Str := "o/r/b/spec.md".toList

/-- C2 counterexample: on `remotedoc://o/r/b/spec.md` the parser does not
return `spec.md`; it returns the whole body `o/r/b/spec.md` after the
scheme, including the owner/repo/branch components. -/
theorem parse_does_not_strip_components :
    parse_remotedoc_url c2url ≠ Except.ok c2path ∧
    parse_remotedoc_url c2url = Except.ok c2full := by
  constructor
  · decide
  · decide

/-- The fixed prefix `o/r/b/` of the C2 round-trip. -/
def orbSlash : Str := "o/r/b/".toList

/-- C2 amended: for a valid normalized path `p = joinSlash parts` (non-empty,
no `.` / `..` / empty segments; additionally percent-free, with no `..`
substring inside a segment, no `\x00`/`\r`/`\n`, and no outer whitespace),
parsing `remotedoc://o/r/b/ ++ p` succeeds and returns the full body
`o/r/b/ ++ p` — the owner/repo/branch components included — rather than
`p` alone. -/
theorem parse_roundtrip_full_body (parts : List Str) (hne : parts ≠ [])
    (hall : ∀ p ∈ parts, SegOK p)
    (hstrip : pyStrip (remotedocScheme ++ orbSlash ++ joinSlash parts)
      = remotedocScheme ++ orbSlash ++ joinSlash parts) :
    parse_remotedoc_url (remotedocScheme ++ orbSlash ++ joinSlash parts)
      = Except.ok (orbSlash ++ joinSlash parts) := by
  have hshape : remotedocScheme ++ orbSlash ++ joinSlash parts
      = remotedocScheme ++ joinSlash (['o'] :: ['r'] :: ['b'] :: parts) := by
    rw [joinSlash_cons _ _ (by simp), joinSlash_cons _ _ (by simp),
      joinSlash_cons _ _ hne]
    simp [remotedocScheme, orbSlash]
  have hall3 : ∀ p ∈ ['o'] :: ['r'] :: ['b'] :: parts, SegOK p := by
    intro p hp
    rcases List.mem_cons.mp hp with h1 | hp
    · rw [h1]; decide
    rcases List.mem_cons.mp hp with h1 | hp
    · rw [h1]; decide
    rcases List.mem_cons.mp hp with h1 | hp
    · rw [h1]; decide
    exact hall p hp
  have hshape2 : orbSlash ++ joinSlash parts
      = joinSlash (['o'] :: ['r'] :: ['b'] :: parts) := by
    rw [joinSlash_cons _ _ (by simp), joinSlash_cons _ _ (by simp),
      joinSlash_cons _ _ hne]
    simp [orbSlash]
  rw [hshape, hshape2]
  rw [parse_remotedoc_url_joinSlash _ (by simp)
    (fun p hp => (hall3 p hp).1)
    (fun p hp c hc =>
      ⟨((hall3 p hp).2.2.2.2 c hc).1, ((hall3 p hp).2.2.2.2 c hc).2.1⟩)
    (by rw [← hshape]; exact hstrip)]
  rw [normalizeStack_id _ []
    (fun p hp => ⟨(hall3 p hp).1, (hall3 p hp).2.1, (hall3 p hp).2.2.1⟩)]
  simp only [List.reverse_nil, List.nil_append]
  rw [if_pos (is_valid_path_joinSlash _ (by simp) hall3)]

/-- C2 amended witness: `remotedoc://o/r/b/` ++ `docs/g.md` parses to
`o/r/b/docs/g.md`. -/
theorem parse_roundtrip_full_body_witness :
    parse_remotedoc_url
        (remotedocScheme ++ orbSlash ++ joinSlash [['d', 'o', 'c', 's'], ['g', '.', 'm', 'd']])
      = Except.ok (orbSlash ++ joinSlash [['d', 'o', 'c', 's'], ['g', '.', 'm', 'd']]) :=
  parse_roundtrip_full_body [['d', 'o', 'c', 's'], ['g', '.', 'm', 'd']]
    (by decide) (by decide) (by decide)

/-- C7: every path returned by the parser is non-empty, has no `..`
occurrence, does not start with `/` and contains none of `\x00`, `\r`,
`\n`; and whenever the normalized, decoded body fails `is_valid_path`,
the parser rejects the URL with the invalid-path error. -/
theorem parse_output_valid_and_rejects_invalid :
    (∀ url path, parse_remotedoc_url url = Except.ok path →
      path ≠ [] ∧ hasInfix dotdotStr path = false ∧
        (['/'] : Str).isPrefixOf path = false ∧ path.contains '\x00' = false ∧
        path.contains '\r' = false ∧ path.contains '\n' = false) ∧
    (∀ url, url ≠ [] →
      remotedocScheme.isPrefixOf (pyStrip url) = true →
      (pyStrip url).drop 12 ≠ [] →
      is_valid_path (normalize_path (unquote ((pyStrip url).drop 12))) = false →
      parse_remotedoc_url url = Except.error URLParseError.invalidPath) := by
  constructor
  · intro url path h
    rw [parse_remotedoc_url_eq] at h
    split_ifs at h with h1 h2 h3 h4
    have hpath : path = normalize_path (unquote ((pyStrip url).drop 12)) :=
      (Except.ok.inj h).symm
    rw [hpath]
    exact is_valid_path_true_elim _ (by simpa using h4)
  · intro url h1 h2 h3 h4
    rw [parse_remotedoc_url_eq]
    rw [if_neg (by simp [h1])]
    rw [if_pos (by simp [h2])]
    rw [if_neg (by simp [h3])]
    rw [if_neg (by simp [h4])]

/-- Ill-formed input for the C7 witness: normalizes to `a..b`, which fails
validation because of the `..` substring. -/
def c7badUrl : Str := "remotedoc://a..b".toList

/-- C7 witness: the theorem applied at `remotedoc://o/r/b/spec.md` (accepted,
output valid) and at `remotedoc://a..b` (rejected as an invalid path). -/
theorem parse_output_valid_and_rejects_invalid_witness :
    (c2full ≠ [] ∧ hasInfix dotdotStr c2full = false ∧
      (['/'] : Str).isPrefixOf c2full = false ∧ c2full.contains '\x00' = false ∧
      c2full.contains '\r' = false ∧ c2full.contains '\n' = false) ∧
    parse_remotedoc_url c7badUrl = Except.error URLParseError.invalidPath :=
  ⟨parse_output_valid_and_rejects_invalid.1 c2url c2full (by decide),
   parse_output_valid_and_rejects_invalid.2 c7badUrl (by decide) (by decide)
     (by decide) (by decide)⟩

/-! ### The Markdown link rewriter
(`src/context9/mcp_server/markdown/markdown_rewriter.py`) -/

/-- The regex class `[a-zA-Z0-9+.-]` of `is_absolute_url` (line 61). -/
def isSchemeChar (c : Char) : Bool :=
  c.isAlpha || c.isDigit || c == '+' || c == '.' || c == '-'

/-- The literal `"://"`. -/
def colonSlashSlash : Str := "://".toList

/-- The literal `"mailto:"`. -/
def mailtoStr : Str := "mailto:".toList

/-- The regex `^[a-zA-Z][a-zA-Z0-9+.-]*://` of line 61: an ASCII letter, a
run of scheme characters (which exclude `:`, so the greedy run is exactly
the maximal one), then `://`. -/
def matchesSchemeUrl (p : Str) : Bool :=
  match p with
  | [] => false
  | c :: rest => c.isAlpha && colonSlashSlash.isPrefixOf (rest.dropWhile isSchemeChar)

/-- `is_absolute_url` (lines 58-64): `scheme://`, protocol-relative `//`,
or `mailto:`. -/
def is_absolute_url (p : Str) : Bool :=
  matchesSchemeUrl p || (['/', '/'] : Str).isPrefixOf p || mailtoStr.isPrefixOf p

/-- `is_remotedoc_url` (lines 66-68). -/
def is_remotedoc_url (p : Str) : Bool := remotedocScheme.isPrefixOf p

/-- `is_anchor_link` (lines 70-72). -/
def is_anchor_link (p : Str) : Bool :=
  match p with
  | '#' :: _ => true
  | _ => false

/-- Modelled from pathlib (stdlib, not part of this repository): the parts
of a relative `PurePosixPath`, which drops empty and `.` segments. -/
def pathParts (s : Str) : List Str :=
  (splitOnSlash s).filter (fun p => !(p == ([] : Str)) && !(p == ['.']))

/-- Modelled from pathlib: `str(PurePosixPath(s).parent)` for a relative
path `s` — all parts but the last, or `.` when none remain (line 54). -/
def pathParent (s : Str) : Str :=
  match (pathParts s).dropLast with
  | [] => ['.']
  | ps => joinSlash ps

/-- Modelled from pathlib: `str(PurePosixPath(dir) / part)` (line 98).  A
part starting with `/` replaces the whole path (absolute override) and
keeps its root; otherwise the parts concatenate, `.` and empty segments
dropped, `.` when nothing remains. -/
def pathJoin (dir part : Str) : Str :=
  match part with
  | c :: rest =>
    if c == '/' then '/' :: joinSlash (pathParts (c :: rest))
    else
      match pathParts dir ++ pathParts (c :: rest) with
      | [] => ['.']
      | ps => joinSlash ps
  | [] =>
    match pathParts dir ++ pathParts ([] : Str) with
    | [] => ['.']
    | ps => joinSlash ps

/-- Python `s.split(sep)[0]`: the characters before the first `sep`. -/
def takeUntilChar (sep : Char) : Str → Str
  | [] => []
  | c :: rest => if c == sep then [] else c :: takeUntilChar sep rest

/-- Python `s.split(sep, 1)[1]`: the characters after the first `sep`
(the callers guard on `sep in s`). -/
def afterFirstChar (sep : Char) : Str → Str
  | [] => []
  | c :: rest => if c == sep then rest else afterFirstChar sep rest

/-- `resolve_relative_path` (lines 74-121), with the enclosing closure's
`current_dir` passed explicitly: anchors and absolute/remotedoc URLs are
returned as-is, otherwise the path part is joined onto `current_dir`,
normalised with the same `.`/`..` stack as the URL parser, and the query
or fragment is reattached. -/
def resolve_relative_path (current_dir relative_path : Str) : Str :=
  if is_anchor_link relative_path then relative_path
  else
    let path_part := takeUntilChar '#' (takeUntilChar '?' relative_path)
    if is_absolute_url path_part || is_remotedoc_url path_part then relative_path
    else
      let absolute_path :=
        if !(current_dir == ([] : Str)) then pathJoin current_dir path_part
        else path_part
      let normalized_path := joinSlash (normalizeStack (splitOnSlash absolute_path) [])
      if relative_path.contains '?' || relative_path.contains '#' then
        let separator := if relative_path.contains '?' then '?' else '#'
        normalized_path ++ separator :: afterFirstChar separator relative_path
      else normalized_path

/-- `convert_to_remotedoc` (lines 123-171), with the closure's
`owner`, `repo`, `branch`, `current_dir` passed explicitly. -/
def convert_to_remotedoc (owner repo branch current_dir path : Str) : Str :=
  if is_anchor_link path then path
  else
    let path_part := takeUntilChar '#' (takeUntilChar '?' path)
    if is_absolute_url path_part || is_remotedoc_url path_part then path
    else
      let absolute_path := resolve_relative_path current_dir path
      if absolute_path == path &&
          (is_anchor_link path_part || is_absolute_url path_part ||
            is_remotedoc_url path_part) then
        path
      else if absolute_path.contains '?' || absolute_path.contains '#' then
        remotedocScheme ++ owner ++ '/' :: repo ++ '/' :: branch ++ '/' :: absolute_path
      else
        let remotedoc_url :=
          remotedocScheme ++ owner ++ '/' :: repo ++ '/' :: branch ++ '/' :: absolute_path
        if path.contains '?' || path.contains '#' then
          let separator := if path.contains '?' then '?' else '#'
          remotedoc_url ++ separator :: afterFirstChar separator path
        else remotedoc_url

/-- A quote character, the regex class `["']`. -/
def quoteChar (c : Char) : Bool := c == '"' || c == '\''

/-- The stop class of the path group `[^\s"'<>]` (line 187). -/
def pathStop (c : Char) : Bool :=
  pyIsSpace c || c == '"' || c == '\'' || c == '<' || c == '>'

/-- The regex `^([^\s"'<>]+)(?:\s+["']([^"']*)["'])?$` of line 187, as a
deterministic scan (each character class excludes the character that
follows it, so the greedy matches never backtrack): a non-empty run of
path characters, then nothing, or whitespace, a quote, a run of non-quote
characters, a closing quote (either kind), and the end. -/
def matchPathTitle (s : Str) : Option (Str × Option Str) :=
  let run := s.takeWhile (fun c => !(pathStop c))
  let rest := s.dropWhile (fun c => !(pathStop c))
  if run == ([] : Str) then none
  else
    match rest with
    | [] => some (run, none)
    | c :: _ =>
      if pyIsSpace c then
        match rest.dropWhile pyIsSpace with
        | q :: rest2 =>
          if quoteChar q then
            let content := rest2.takeWhile (fun x => !(quoteChar x))
            match rest2.dropWhile (fun x => !(quoteChar x)) with
            | q2 :: rest4 =>
              if quoteChar q2 && rest4 == ([] : Str) then some (run, some content)
              else none
            | [] => none
          else none
        | [] => none
      else none

/-- `replace_inline_link` (lines 179-200): split the parenthesised text
into path and optional title; an empty title is falsy in Python and is
dropped; on a failed split the whole text is converted as the path. -/
def replace_inline_link (owner repo branch current_dir text path_with_title : Str) : Str :=
  match matchPathTitle path_with_title with
  | some (path, titleOpt) =>
    let converted_path := convert_to_remotedoc owner repo branch current_dir path
    match titleOpt with
    | some title =>
      if title == ([] : Str) then
        '[' :: text ++ ']' :: '(' :: converted_path ++ [')']
      else
        '[' :: text ++ ']' :: '(' :: converted_path ++ ' ' :: '"' :: title ++ ['"', ')']
    | none => '[' :: text ++ ']' :: '(' :: converted_path ++ [')']
  | none =>
    let converted_path := convert_to_remotedoc owner repo branch current_dir path_with_title
    '[' :: text ++ ']' :: '(' :: converted_path ++ [')']

/-- Split at the first occurrence of `sep`: `s = before ++ sep :: after`
with `sep ∉ before`. -/
def findSplitChar (sep : Char) : Str → Option (Str × Str)
  | [] => none
  | c :: rest =>
    if c == sep then some ([], rest)
    else
      match findSplitChar sep rest with
      | some (a, b) => some (c :: a, b)
      | none => none

/-- One attempt of the inline-link regex `\[([^\]]*)\]\(([^)]+)\)`
(line 176) at the current position: `[`, the text up to the first `]`,
`(`, a non-empty run up to the first `)`, and `)`; returns the text, the
parenthesised content and the remainder. -/
def matchInline (s : Str) : Option (Str × Str × Str) :=
  match s with
  | [] => none
  | c :: r1 =>
    if c == '[' then
      match findSplitChar ']' r1 with
      | some (text, r2) =>
        (match r2 with
         | [] => none
         | c2 :: r3 =>
           if c2 == '(' then
             match findSplitChar ')' r3 with
             | some (inner, rest) =>
               if inner == ([] : Str) then none else some (text, inner, rest)
             | none => none
           else none)
      | none => none
    else none

/-- The scan of `inline_link_pattern.sub` (line 223): leftmost matches,
replaced in one pass, continuing after each replacement.  The fuel is the
length of the remaining input (each step consumes at least one
character). -/
def inlineSubF (owner repo branch current_dir : Str) : Nat → Str → Str
  | 0, s => s
  | Nat.succ n, s =>
    match s with
    | [] => []
    | c :: rest =>
      match matchInline (c :: rest) with
      | some (text, inner, rest2) =>
        replace_inline_link owner repo branch current_dir text inner
          ++ inlineSubF owner repo branch current_dir n rest2
      | none => c :: inlineSubF owner repo branch current_dir n rest

def inlineSub (owner repo branch current_dir s : Str) : Str :=
  inlineSubF owner repo branch current_dir s.length s

/-- Split `w` at its last newline: `w = a ++ '\n' :: b` with `'\n' ∉ b`. -/
def lastNewlineSplit : Str → Option (Str × Str)
  | [] => none
  | c :: rest =>
    match lastNewlineSplit rest with
    | some (a, b) => some (c :: a, b)
    | none => if c == '\n' then some ([], rest) else none

/-- The trailing `\s*$` of the reference regex (line 205) under
`re.MULTILINE`: greedily consume whitespace, then `$` must see the end of
input or a newline; with backtracking this matches up to the end when
everything left is whitespace, else up to (not including) the last
newline of the whitespace run.  Returns the consumed part and the rest. -/
def matchWsLineEnd (r : Str) : Option (Str × Str) :=
  let w := r.takeWhile pyIsSpace
  let rest := r.dropWhile pyIsSpace
  if rest == ([] : Str) then some (r, [])
  else
    match lastNewlineSplit w with
    | some (a, b) => some (a, '\n' :: (b ++ rest))
    | none => none

/-- `replace_reference_link` (lines 209-220): rebuild the definition line
with the converted path; an empty title is falsy and is dropped. -/
def replace_reference_link (owner repo branch current_dir indent ref path : Str)
    (title : Option Str) : Str :=
  let converted_path := convert_to_remotedoc owner repo branch current_dir path
  match title with
  | some t =>
    if t == ([] : Str) then
      indent ++ '[' :: ref ++ ']' :: ':' :: ' ' :: converted_path
    else
      indent ++ '[' :: ref ++ ']' :: ':' :: ' ' :: converted_path ++ ' ' :: '"' :: t ++ ['"']
  | none => indent ++ '[' :: ref ++ ']' :: ':' :: ' ' :: converted_path

/-- One attempt of the reference regex
`^(\s*)\[([^\]]+)\]:\s+([^\s"']+)(?:\s+["']([^"']*)["'])?\s*$` (line 205)
at a line start: the greedy classes make the scan deterministic — the
first non-whitespace must be `[`, the reference runs to the first `]`
(non-empty), then `:`, at least one whitespace, the path is the maximal
non-whitespace non-quote run (non-empty), then optionally whitespace and
a quoted title, then `\s*$`.  Returns the replacement and the remainder
(which is empty or begins with the newline holding the `$`). -/
def tryRefMatch (owner repo branch current_dir s : Str) : Option (Str × Str) :=
  let indent := s.takeWhile pyIsSpace
  match s.dropWhile pyIsSpace with
  | [] => none
  | c :: r1 =>
    if !(c == '[') then none
    else
    (match findSplitChar ']' r1 with
     | some (ref, r2) =>
       if ref == ([] : Str) then none
       else
         match r2 with
         | [] => none
         | c2 :: r3 =>
           if !(c2 == ':') then none
           else
           if (r3.takeWhile pyIsSpace) == ([] : Str) then none
           else
             let r4 := r3.dropWhile pyIsSpace
             let path := r4.takeWhile (fun c => !(pyIsSpace c || quoteChar c))
             if path == ([] : Str) then none
             else
               let r5 := r4.dropWhile (fun c => !(pyIsSpace c || quoteChar c))
               let tryTitle : Option (Str × Str) :=
                 if (r5.takeWhile pyIsSpace) == ([] : Str) then none
                 else
                   match r5.dropWhile pyIsSpace with
                   | q :: r6 =>
                     if quoteChar q then
                       let content := r6.takeWhile (fun x => !(quoteChar x))
                       match r6.dropWhile (fun x => !(quoteChar x)) with
                       | q2 :: r7 =>
                         if quoteChar q2 then
                           match matchWsLineEnd r7 with
                           | some (_, rest) => some (content, rest)
                           | none => none
                         else none
                       | [] => none
                     else none
                   | [] => none
               match tryTitle with
               | some (title, rest) =>
                 some (replace_reference_link owner repo branch current_dir
                   indent ref path (some title), rest)
               | none =>
                 match matchWsLineEnd r5 with
                 | some (_, rest) =>
                   some (replace_reference_link owner repo branch current_dir
                     indent ref path none, rest)
                 | none => none
     | none => none)

/-- The scan of `reference_link_pattern.sub` (line 224): under
`re.MULTILINE` a match can only start at a line start; on a match the
remainder starts at the `$` newline (or is empty), and on a failure no
match can start before the next newline.  The fuel is the length of the
remaining input. -/
def refSubF (owner repo branch current_dir : Str) : Nat → Str → Str
  | 0, s => s
  | Nat.succ n, s =>
    match tryRefMatch owner repo branch current_dir s with
    | some (repl, rest) =>
      (match rest with
       | [] => repl
       | c :: tail => repl ++ c :: refSubF owner repo branch current_dir n tail)
    | none =>
      match findSplitChar '\n' s with
      | some (line, tail) => line ++ '\n' :: refSubF owner repo branch current_dir n tail
      | none => s

def refSub (owner repo branch current_dir s : Str) : Str :=
  refSubF owner repo branch current_dir s.length s

/-- `rewrite_relative_paths` (lines 12-226): normalise `current_path`,
compute the anchor directory, then apply the inline-link substitution
followed by the reference-definition substitution. -/
def rewrite_relative_paths (content owner repo branch current_path : Str) : Str :=
  if content == ([] : Str) then content
  else
    let current_path := stripSlashes current_path
    let current_path := if current_path == ([] : Str) then ['.'] else current_path
    let current_dir := if current_path == ['.'] then ['.'] else pathParent current_path
    let current_dir := if current_dir == ['.'] then ([] : Str) else current_dir
    refSub owner repo branch current_dir
      (inlineSub owner repo branch current_dir content)

/-! ### Claim theorems for the link rewriter scenario (C3) -/

/-- The body of the spec's link-rewriting scenario. -/
def c3body : Str := "See [guide](./docs/g.md) and [home](/abs) and [x](http://y)".toList

/-- The output the claim asserts (the root-absolute `/abs` left verbatim). -/
def c3claimed : Str :=
  "See [guide](remotedoc://alice/docs/main/docs/g.md) and [home](/abs) and [x](http://y)".toList

/-- The output the code produces (`/abs` rewritten; normalization drops the
leading slash). -/
def c3actual : Str :=
  "See [guide](remotedoc://alice/docs/main/docs/g.md) and [home](remotedoc://alice/docs/main/abs) and [x](http://y)".toList

def aliceStr : Str := "alice".toList

def docsStr : Str := "docs".toList

def mainStr : Str := "main".toList

def readmeStr : Str := "README.md".toList

/-- C3 counterexample: on the scenario input the rewriter does not leave
`[home](/abs)` verbatim — its output differs from the claimed string. -/
theorem rewrite_scenario_not_as_claimed :
    rewrite_relative_paths c3body aliceStr docsStr mainStr readmeStr ≠ c3claimed := by
  decide

/-- C3 amended: on the scenario input the relative destination is
rewritten, the absolute URL `http://y` is left verbatim, but the
root-absolute destination `/abs` is rewritten as well: the path join treats
it as absolute and normalization drops the leading slash, producing
`remotedoc://alice/docs/main/abs`. -/
theorem rewrite_scenario_actual_output :
    rewrite_relative_paths c3body aliceStr docsStr mainStr readmeStr = c3actual := by
  decide

/-! ### The GitHub client
(`src/context9/mcp_server/client/github_client/github_client.py`) -/

/-- One entry of `self.repos` (lines 150-161 / 133-135): the fields the
claims exercise. -/
structure RepoEntry where
  owner : Str
  repo : Str
  branch : Str
  root_spec_path : Str
  github_token : Option Str
deriving DecidableEq

/-- The attributes `GitHubClient.__init__` (lines 64-136) assigns on the
instance.  There is no `token` attribute: the constructor's parameter list
has no `token`, and no `self.token = ...` assignment occurs anywhere in
the class — tokens live per-repository in `repo["github_token"]`. -/
structure GitHubClient where
  timeout : Nat
  sync_interval : Option Nat
  enable_github_webhook : Bool
  max_workers : Nat
  repos : List RepoEntry
  use_database : Bool

/-- Exceptions of the Python runtime that the embedded code can raise. -/
inductive PyExc where
  | attributeError  -- attribute lookup on a missing attribute
  | typeError       -- call with missing required positional argument
deriving DecidableEq, Repr

/-- Python attribute access `self.token` on a `GitHubClient` instance: the
class never defines `token`, so the lookup raises `AttributeError`
regardless of the instance. -/
def getattr_token (_client : GitHubClient) : Except PyExc Bool :=
  .error .attributeError

def httpsAt : Str := "https://".toList

def atGithub : Str := "@github.com/".toList

def httpsGithub : Str := "https://github.com/".toList

def dotGit : Str := ".git".toList

/-- `GitHubClient._get_repo_url` (lines 189-196): the authenticated URL
when the repository carries a token, else the public URL. -/
def _get_repo_url (repo : RepoEntry) : Str :=
  match repo.github_token with
  | some token =>
    httpsAt ++ token ++ atGithub ++ repo.owner ++ '/' :: repo.repo ++ dotGit
  | none => httpsGithub ++ repo.owner ++ '/' :: repo.repo ++ dotGit

/-- The public URL built in the retry branch (lines 254-256). -/
def public_url (repo : RepoEntry) : Str :=
  httpsGithub ++ repo.owner ++ '/' :: repo.repo ++ dotGit

/-- Result of the clone path of a sync attempt. -/
inductive CloneOutcome where
  | cloned (url : Str)        -- a `git clone` succeeded with this URL
  | githubClientError         -- GitHubClientError raised (clone failed, lines 289/296)
  | pythonError (e : PyExc)   -- an uncaught Python exception escaped
deriving DecidableEq

/-- The clone path of `GitHubClient._sync_repository` (lines 216-298),
over an oracle `cloneOk` telling which clone URLs succeed.  On a failed
first clone the `except` handler evaluates `if self.token:` (line 250);
`GitHubClient` has no `token` attribute, so the lookup raises
`AttributeError` and the handler itself blows up: the retry code of
lines 251-291 (kept below under the unreachable `.ok` branch of
`getattr_token`) never runs. -/
def _sync_repository_clone (client : GitHubClient) (repo : RepoEntry)
    (cloneOk : Str → Bool) : CloneOutcome :=
  let repo_url := _get_repo_url repo
  if cloneOk repo_url then .cloned repo_url
  else
    match getattr_token client with
    | .error e => .pythonError e
    | .ok tok =>
      if tok then
        if cloneOk (public_url repo) then .cloned (public_url repo)
        else .githubClientError
      else .githubClientError

/-- A webhook request as the handler sees it: the two headers (defaulting
to `"unknown"` when absent, lines 961-962) and whether `request.json()`
parses (line 969). -/
structure WebhookRequest where
  event_type : Str
  delivery_id : Str
  json_ok : Bool

/-- The JSON response of the webhook handler: HTTP status code, the
`status` field, and the optional `event` / `delivery_id` fields. -/
structure WebhookResponse where
  status_code : Nat
  status : Str
  event : Option Str
  delivery_id : Option Str
deriving DecidableEq

/-- The zero-argument call `self._sync_repository()` at line 979: the
method signature (line 198) requires the positional parameter `repo`, so
Python raises `TypeError` before any sync work starts. -/
def _sync_repository_zero_args : Except PyExc Unit :=
  .error .typeError

def successStr : Str := "success".toList

def errorStr : Str := "error".toList

def pushStr : Str := "push".toList

/-- `GitHubClient.handle_github_webhook` (lines 949-1007): inside the big
`try`, a failed JSON parse raises; for a `push` event the handler calls
`self._sync_repository()` with no argument — a `TypeError` — so the
`except` at line 999 answers 500; other events fall through to the 200
response. -/
def handle_github_webhook (req : WebhookRequest) : WebhookResponse :=
  if !req.json_ok then
    { status_code := 500, status := errorStr, event := none, delivery_id := none }
  else if req.event_type == pushStr then
    match _sync_repository_zero_args with
    | .error _ =>
      { status_code := 500, status := errorStr, event := none, delivery_id := none }
    | .ok _ =>
      { status_code := 200, status := successStr,
        event := some req.event_type, delivery_id := some req.delivery_id }
  else
    { status_code := 200, status := successStr,
      event := some req.event_type, delivery_id := some req.delivery_id }

/-- Python `s.split(sep, maxsplit)`: at most `n` splits, remainder kept
whole. -/
def splitSlashMax : Nat → Str → List Str
  | 0, s => [s]
  | Nat.succ n, s =>
    match findSplitChar '/' s with
    | none => [s]
    | some (a, b) => a :: splitSlashMax n b

/-- The environment a `read_doc` call runs in: the in-memory repository
list and `use_database` flag of the client, the database join behind
`can_access_repository` (lines 740-777), the filesystem under `cache_dir`
(keyed by the URL-derived relative path), and the outcome of an on-demand
sync. -/
structure ReadEnv where
  repos : List RepoEntry
  use_database : Bool
  can_access : Str → Str → Str → Str → Bool  -- owner repo branch api_key
  exists1 : Str → Bool       -- `(cache_dir / path).exists()` before any sync (line 828)
  sync_ok : RepoEntry → Bool  -- whether `_sync_repository(repo)` succeeds (line 831)
  exists2 : Str → Bool       -- `local_file_path.exists()` under the read lock (line 842)
  content : Str → Option Str  -- UTF-8 read (line 858); `none` models UnicodeDecodeError
  bin_content : Str → Str     -- binary fallback read with replacement (line 880)

/-- The error surface of `read_doc`. -/
inductive ReadError where
  | clientError          -- GitHubClientError
  | fileNotFound         -- GitHubFileNotFoundError
  | authenticationError  -- GitHubAuthenticationError
  | pythonIndexError     -- uncaught IndexError from `path.split("/")[i]`
deriving DecidableEq

/-- The inner helper `get_repo` of `read_doc` (lines 795-801): take the
second `/`-component of the path and return the first tracked repository
whose `repo` name equals it — the owner component is never consulted.
`path.split("/")[1]` raises `IndexError` when there are fewer than two
components. -/
def get_repo (repos : List RepoEntry) (path : Str) :
    Except ReadError (Option RepoEntry) :=
  match (splitOnSlash path).get? 1 with
  | none => .error .pythonIndexError
  | some repo_name => .ok (repos.find? (fun r => r.repo == repo_name))

/-- `GitHubClient.read_doc` (lines 779-893).  The branch component is
taken from the URL; a mismatch with the cached branch only logs a warning
(lines 810-813).  The access check runs only when `use_database` is true
(line 815) and uses the URL's branch.  The file is looked up under
`cache_dir / path` — the URL-derived path — synced on a miss, re-checked
under the read lock, read, and passed through the link rewriter with the
cached branch (line 867) and the rest of the path as `current_path`
(line 864). -/
def read_doc (env : ReadEnv) (path : Str) (api_key : Str) : Except ReadError Str :=
  match get_repo env.repos path with
  | .error e => .error e
  | .ok none => .error .clientError  -- line 805: "Repository related to path ... not found"
  | .ok (some repo) =>
    match (splitOnSlash path).get? 2 with
    | none => .error .pythonIndexError  -- line 807: `branch = path.split("/")[2]`
    | some branch =>
      -- lines 810-813: warning only when `branch != repo["branch"]`
      if env.use_database && !(env.can_access repo.owner repo.repo branch api_key) then
        .error .authenticationError  -- lines 815-820
      else
        match
          (if !(env.exists1 path) then
            (if env.sync_ok repo then Except.ok () else Except.error ReadError.clientError)
          else Except.ok ()) with
        | .error e => .error e  -- line 835: sync failure becomes GitHubClientError
        | .ok _ =>
          -- under ReadLockContext (line 839)
          if !(env.exists2 path) then .error .fileNotFound  -- lines 842-845
          else
            -- lines 847-855: `resolve().relative_to()` of the path against
            -- itself always succeeds, so the traversal check cannot fire
            match env.content path with
            | some content =>
              match (splitSlashMax 3 path).get? 3 with
              | none => .error .clientError  -- IndexError at line 864, caught at line 890
              | some current_path =>
                .ok (rewrite_relative_paths content repo.owner repo.repo repo.branch
                  current_path)
            | none => .ok (env.bin_content path)  -- lines 876-884: returned unrewritten

/-! ### Claim theorems for the GitHub client -/

/-- A tracked repository with a credential, for the C4 scenario. -/
def c4repo : RepoEntry :=
  { owner := "o".toList
    repo := "r".toList
    branch := "main".toList
    root_spec_path := "spec.md".toList
    github_token := some ("tok".toList) }

/-- A client as `__init__` builds it (no `token` attribute exists). -/
def c4client : GitHubClient :=
  { timeout := 30
    sync_interval := some 600
    enable_github_webhook := false
    max_workers := 5
    repos := [c4repo]
    use_database := true }

/-- The clone oracle of the C4 scenario: the authenticated URL fails, the
public URL would succeed. -/
def c4cloneOk (u : Str) : Bool := u == public_url c4repo

/-- C4: when the authenticated clone fails, the code does not retry with
the public URL: evaluating `if self.token:` raises `AttributeError`
(`GitHubClient` has no `token` attribute), so the sync aborts with an
uncaught Python error even though the public clone would have
succeeded. -/
theorem sync_clone_retry_dead_code :
    _sync_repository_clone c4client c4repo c4cloneOk
        = CloneOutcome.pythonError PyExc.attributeError ∧
    c4cloneOk (public_url c4repo) = true ∧
    c4cloneOk (_get_repo_url c4repo) = false := by
  decide

/-- A push webhook delivery whose JSON body parses. -/
def c5push : WebhookRequest :=
  { event_type := "push".toList, delivery_id := "d-1".toList, json_ok := true }

/-- A ping delivery whose JSON body parses. -/
def c5ping : WebhookRequest :=
  { event_type := "ping".toList, delivery_id := "d-2".toList, json_ok := true }

/-- A delivery whose body is not valid JSON. -/
def c5badjson : WebhookRequest :=
  { event_type := "ping".toList, delivery_id := "d-3".toList, json_ok := false }

/-- The 500 error response of the handler. -/
def c5err500 : WebhookResponse :=
  { status_code := 500, status := errorStr, event := none, delivery_id := none }

/-- The 200 success response for the C5 ping delivery. -/
def c5ok200ping : WebhookResponse :=
  { status_code := 200, status := successStr,
    event := some ("ping".toList), delivery_id := some ("d-2".toList) }

/-- The 200 success response the claim expects for the push delivery. -/
def c5ok200push : WebhookResponse :=
  { status_code := 200, status := successStr,
    event := some ("push".toList), delivery_id := some ("d-1".toList) }

/-- C5: a `push` delivery does not trigger a sync and does not get the
claimed 200 success response: the zero-argument `self._sync_repository()`
call raises `TypeError`, so the handler answers 500 with status `error`.
Non-push events are acknowledged with 200, and a handler exception (here
a JSON parse failure) yields 500. -/
theorem webhook_push_returns_500 :
    handle_github_webhook c5push = c5err500 ∧
    handle_github_webhook c5push ≠ c5ok200push ∧
    handle_github_webhook c5ping = c5ok200ping ∧
    handle_github_webhook c5badjson = c5err500 := by
  decide

/-- The tracked repository of the read scenarios: `alice/docs`, cached
branch `main`. -/
def c1repo : RepoEntry :=
  { owner := "alice".toList
    repo := "docs".toList
    branch := "main".toList
    root_spec_path := "spec.md".toList
    github_token := none }

/-- The URL-derived path matching the cached branch. -/
def c1path : Str := "alice/docs/main/spec.md".toList

/-- The document body of the read scenarios. -/
def hiStr : Str := "# hi".toList

/-- An arbitrary API key. -/
def anyKey : Str := "k".toList

/-- A read environment in non-database mode whose access oracle denies
everything; the cached file exists under the cached-branch path. -/
def c1env : ReadEnv :=
  { repos := [c1repo]
    use_database := false
    can_access := fun _ _ _ _ => false
    exists1 := fun p => p == c1path
    sync_ok := fun _ => false
    exists2 := fun p => p == c1path
    content := fun p => if p == c1path then some hiStr else none
    bin_content := fun _ => [] }

/-- C1 counterexample: with the repository list populated from the
constructor parameter (`use_database = false`), a read succeeds although
`can_access` answers false for every key — the authorization check is
skipped entirely. -/
theorem read_succeeds_without_access :
    read_doc c1env c1path anyKey = Except.ok hiStr ∧
    c1env.use_database = false ∧
    c1env.can_access ("alice".toList) ("docs".toList) ("main".toList) anyKey = false := by
  decide

/-- C1 amended: in database mode (`use_database = true`) a successful read
implies the access oracle granted the key on the resolved repository's
owner and name and the URL's branch component. -/
theorem read_requires_access_in_database_mode (env : ReadEnv) (path api_key c : Str)
    (hdb : env.use_database = true) (hok : read_doc env path api_key = Except.ok c) :
    ∃ repo branch, get_repo env.repos path = Except.ok (some repo) ∧
      (splitOnSlash path).get? 2 = some branch ∧
      env.can_access repo.owner repo.repo branch api_key = true := by
  unfold read_doc at hok
  split at hok
  · exact absurd hok (by simp)
  · exact absurd hok (by simp)
  · rename_i repo hgr
    split at hok
    · exact absurd hok (by simp)
    · rename_i branch hbr
      split at hok
      · exact absurd hok (by simp)
      · rename_i hcond
        refine ⟨repo, branch, hgr, hbr, ?_⟩
        simpa [hdb] using hcond

/-- A database-mode environment whose access oracle grants everything. -/
def c1envDb : ReadEnv :=
  { repos := [c1repo]
    use_database := true
    can_access := fun _ _ _ _ => true
    exists1 := fun p => p == c1path
    sync_ok := fun _ => false
    exists2 := fun p => p == c1path
    content := fun p => if p == c1path then some hiStr else none
    bin_content := fun _ => [] }

/-- C1 amended witness: the amended theorem applied to a concrete
database-mode read that succeeds. -/
theorem read_requires_access_in_database_mode_witness :
    ∃ repo branch, get_repo c1envDb.repos c1path = Except.ok (some repo) ∧
      (splitOnSlash c1path).get? 2 = some branch ∧
      c1envDb.can_access repo.owner repo.repo branch anyKey = true :=
  read_requires_access_in_database_mode c1envDb c1path anyKey hiStr rfl (by decide)

/-- The URL naming a branch that differs from the cached one. -/
def c8path : Str := "alice/docs/dev/spec.md".toList

/-- The read environment of the C8 scenario: the file exists only under
the cached-branch path `alice/docs/main/spec.md`; syncs succeed but do
not create the `dev` path. -/
def c8env : ReadEnv :=
  { repos := [c1repo]
    use_database := false
    can_access := fun _ _ _ _ => true
    exists1 := fun p => p == c1path
    sync_ok := fun _ => true
    exists2 := fun p => p == c1path
    content := fun p => if p == c1path then some hiStr else none
    bin_content := fun _ => [] }

/-- C8 counterexample: with the URL branch `dev` differing from the cached
branch `main`, the read does not serve the cached branch's content — it
fails with a file-not-found error (after a sync attempt), while the same
URL with the cached branch succeeds. -/
theorem read_branch_mismatch_fails :
    read_doc c8env c8path anyKey = Except.error ReadError.fileNotFound ∧
    read_doc c8env c1path anyKey = Except.ok hiStr ∧
    (splitOnSlash c8path).get? 2 = some ("dev".toList) ∧
    c1repo.branch = "main".toList := by
  decide

/-- C8 amended: the repository is resolved by the `repo` path component
alone — two paths with the same second component resolve identically, so
the owner (and branch) are ignored — and a branch mismatch is not
rejected; but the content is looked up under the URL-derived path, so a
read can only succeed when a file exists at that path: with a mismatched
branch the lookup misses the cached tree and the read fails rather than
serving the cached branch. -/
theorem read_resolves_by_repo_name_and_url_path :
    (∀ (repos : List RepoEntry) (p1 p2 : Str),
      (splitOnSlash p1).get? 1 = (splitOnSlash p2).get? 1 →
      get_repo repos p1 = get_repo repos p2) ∧
    (∀ (env : ReadEnv) (path api_key c : Str),
      read_doc env path api_key = Except.ok c → env.exists2 path = true) := by
  constructor
  · intro repos p1 p2 h
    unfold get_repo
    rw [h]
  · intro env path api_key c hok
    unfold read_doc at hok
    split at hok
    · exact absurd hok (by simp)
    · exact absurd hok (by simp)
    · split at hok
      · exact absurd hok (by simp)
      · split at hok
        · exact absurd hok (by simp)
        · split at hok
          · exact absurd hok (by simp)
          · split at hok
            · exact absurd hok (by simp)
            · rename_i hex
              simpa using hex

/-- The C8 URL with a wrong owner, resolving identically to the right
one. -/
def c8bobPath : Str := "bob/docs/dev/spec.md".toList

/-- C8 amended witness: resolution at two concrete paths differing only in
owner gives the same repository, and the concrete successful read of the
cached-branch URL indeed has its file at the URL-derived path. -/
theorem read_resolves_by_repo_name_and_url_path_witness :
    get_repo c8env.repos c8bobPath = get_repo c8env.repos c8path ∧
    c8env.exists2 c1path = true :=
  ⟨read_resolves_by_repo_name_and_url_path.1 c8env.repos c8bobPath c8path (by decide),
   read_resolves_by_repo_name_and_url_path.2 c8env c1path anyKey hiStr (by decide)⟩

/-! ### Idempotence of the link rewriter (C6)

The claim quantifies over Markdown bodies by what their link destinations
are; to make that precise the bodies are generated from a structured
document: a list of plain-text runs and inline links.  `renderDoc` turns
a document into its Markdown text, and the well-formedness predicate
`WfItem` pins down the class of bodies the theorem covers. -/

inductive MdItem where
  | plain (s : Str)
  | link (text dest : Str) (title : Option Str)

/-- The Markdown text of one item: plain text verbatim, links as
`[text](dest)` or `[text](dest "title")`. -/
def renderItem : MdItem → Str
  | .plain s => s
  | .link text dest title =>
    match title with
    | none => '[' :: text ++ ']' :: '(' :: dest ++ [')']
    | some t => '[' :: text ++ ']' :: '(' :: dest ++ ' ' :: '"' :: t ++ ['"', ')']

def renderDoc (doc : List MdItem) : Str := (doc.map renderItem).flatten

/-- A destination-safe character: not whitespace, and none of the
characters that would cut the scanner's path group short or confuse the
bracket structure. -/
def SafeChar (c : Char) : Prop :=
  pyIsSpace c = false ∧ c ≠ '"' ∧ c ≠ '\'' ∧ c ≠ '<' ∧ c ≠ '>' ∧ c ≠ ')' ∧ c ≠ ']'

instance (c : Char) : Decidable (SafeChar c) := by unfold SafeChar; infer_instance

/-- A string of destination-safe characters (used for the owner, repo,
branch and the current path, whose characters flow into rewritten
destinations). -/
def SafeStr (s : Str) : Prop := ∀ c ∈ s, SafeChar c

instance (s : Str) : Decidable (SafeStr s) := by unfold SafeStr; infer_instance

/-- Well-formedness of a document item: plain text carries no brackets
(so no link can begin or end inside it), link text stops at its first
`]`, destinations are non-empty and destination-safe, titles are
non-empty and quote-free and cannot close the parenthesis early. -/
def WfItem : MdItem → Prop
  | .plain s => ∀ c ∈ s, c ≠ '[' ∧ c ≠ ']'
  | .link text dest title =>
    (∀ c ∈ text, c ≠ ']') ∧ dest ≠ [] ∧ (∀ c ∈ dest, SafeChar c) ∧
    (∀ t, title = some t →
      t ≠ [] ∧ ∀ c ∈ t, c ≠ '"' ∧ c ≠ '\'' ∧ c ≠ ')' ∧ c ≠ ']')

/-- The per-item action of one rewriting pass: link destinations go
through `convert_to_remotedoc`, everything else is unchanged (titles are
re-emitted between double quotes, which `renderItem` already uses). -/
def convItem (owner repo branch current_dir : Str) : MdItem → MdItem
  | .plain s => .plain s
  | .link text dest title =>
    .link text (convert_to_remotedoc owner repo branch current_dir dest) title

/-! #### Structure lemmas for the scanners -/

theorem findSplitChar_eq (sep : Char) (s a b : Str)
    (h : findSplitChar sep s = some (a, b)) : s = a ++ sep :: b := by
  match s with
  | [] => simp [findSplitChar] at h
  | c :: rest =>
    simp only [findSplitChar] at h
    split at h
    · rename_i hc
      obtain ⟨h1, h2⟩ := Prod.mk.injEq .. ▸ (Option.some.inj h)
      rw [← h1, ← h2]
      simpa using (beq_iff_eq.mp hc)
    · rename_i hc
      match hrec : findSplitChar sep rest with
      | some (a2, b2) =>
        rw [hrec] at h
        obtain ⟨h1, h2⟩ := Prod.mk.injEq .. ▸ (Option.some.inj h)
        rw [← h1, ← h2]
        simpa using findSplitChar_eq sep rest a2 b2 hrec
      | none => rw [hrec] at h; simp at h

theorem findSplitChar_append (sep : Char) (a b : Str) (h : ∀ c ∈ a, c ≠ sep) :
    findSplitChar sep (a ++ sep :: b) = some (a, b) := by
  induction a with
  | nil => simp [findSplitChar]
  | cons c rest ih =>
    have hc : c ≠ sep := h c (by simp)
    simp only [List.cons_append, findSplitChar]
    rw [if_neg (by simp [hc])]
    simp only [List.append_eq]
    rw [ih (fun x hx => h x (by simp [hx]))]

theorem takeWhile_append_all (p : Char → Bool) (a b : Str)
    (h : ∀ c ∈ a, p c = true) : (a ++ b).takeWhile p = a ++ b.takeWhile p := by
  induction a with
  | nil => simp
  | cons c rest ih =>
    simp only [List.cons_append, List.takeWhile_cons, h c (by simp)]
    rw [ih (fun x hx => h x (by simp [hx]))]
    simp

theorem dropWhile_append_all (p : Char → Bool) (a b : Str)
    (h : ∀ c ∈ a, p c = true) : (a ++ b).dropWhile p = b.dropWhile p := by
  induction a with
  | nil => simp
  | cons c rest ih =>
    simp only [List.cons_append, List.dropWhile_cons, h c (by simp)]
    exact ih (fun x hx => h x (by simp [hx]))

/-- A non-`[` head admits no inline match. -/
theorem matchInline_none (c : Char) (rest : Str) (hc : c ≠ '[') :
    matchInline (c :: rest) = none := by
  simp only [matchInline]
  rw [if_neg (by simp [hc])]

/-- Shape of a successful inline match. -/
theorem matchInline_some (s text inner rest : Str)
    (h : matchInline s = some (text, inner, rest)) :
    s = '[' :: text ++ ']' :: '(' :: inner ++ ')' :: rest ∧ inner ≠ [] := by
  match s with
  | [] => simp [matchInline] at h
  | c :: r1 =>
    simp only [matchInline] at h
    split_ifs at h with hc
    have hc2 : c = '[' := by simpa using hc
    subst hc2
    split at h
    · rename_i text2 r2 h1
      split at h
      · simp at h
      · rename_i c2 r3
        split_ifs at h with hc3
        have hc4 : c2 = '(' := by simpa using hc3
        subst hc4
        split at h
        · rename_i inner2 rest2 h2
          split at h
          · simp at h
          · rename_i hinner
            obtain ⟨ht, hi, hr⟩ := by simpa using h
            subst ht; subst hi; subst hr
            refine ⟨?_, by simpa using hinner⟩
            rw [findSplitChar_eq ']' r1 text2 ('(' :: r3) h1,
              findSplitChar_eq ')' r3 inner2 rest2 h2]
            simp
        · simp at h
    · simp at h

theorem takeWhile_all (p : Char → Bool) (a : Str) (h : ∀ c ∈ a, p c = true) :
    a.takeWhile p = a := by
  have := takeWhile_append_all p a [] h
  simpa using this

theorem dropWhile_all (p : Char → Bool) (a : Str) (h : ∀ c ∈ a, p c = true) :
    a.dropWhile p = [] := by
  have := dropWhile_append_all p a [] h
  simpa using this

theorem inlineSubF_cons_none (owner repo branch cd : Str) (n : Nat) (c : Char)
    (rest : Str) (h : matchInline (c :: rest) = none) :
    inlineSubF owner repo branch cd (Nat.succ n) (c :: rest)
      = c :: inlineSubF owner repo branch cd n rest := by
  simp [inlineSubF, h]

theorem inlineSubF_cons_some (owner repo branch cd : Str) (n : Nat) (c : Char)
    (rest text inner rest2 : Str)
    (h : matchInline (c :: rest) = some (text, inner, rest2)) :
    inlineSubF owner repo branch cd (Nat.succ n) (c :: rest)
      = replace_inline_link owner repo branch cd text inner
          ++ inlineSubF owner repo branch cd n rest2 := by
  simp [inlineSubF, h]

/-- The result of the fuelled inline scan does not depend on the fuel once
the fuel covers the input length. -/
theorem inlineSubF_stable (owner repo branch cd : Str) (f1 f2 : Nat) (s : Str)
    (h1 : s.length ≤ f1) (h2 : s.length ≤ f2) :
    inlineSubF owner repo branch cd f1 s = inlineSubF owner repo branch cd f2 s := by
  induction f1 generalizing f2 s with
  | zero =>
    have hs : s = [] := List.length_eq_zero.mp (Nat.le_zero.mp h1)
    subst hs
    cases f2 <;> rfl
  | succ n ih =>
    match s with
    | [] => cases f2 <;> rfl
    | c :: rest =>
      match f2, h2 with
      | Nat.succ m, h2 =>
        match hm : matchInline (c :: rest) with
        | some (text, inner, rest2) =>
          obtain ⟨hshape, hne⟩ := matchInline_some _ _ _ _ hm
          have hlen : rest2.length + 4 ≤ rest.length := by
            have hL := congrArg List.length hshape
            simp only [List.length_cons, List.length_append] at hL
            have hi : 1 ≤ inner.length := List.length_pos.mpr hne
            omega
          rw [inlineSubF_cons_some owner repo branch cd n c rest text inner rest2 hm,
            inlineSubF_cons_some owner repo branch cd m c rest text inner rest2 hm]
          congr 1
          refine ih m rest2 ?_ ?_
          · simp only [List.length_cons] at h1; omega
          · simp only [List.length_cons] at h2; omega
        | none =>
          rw [inlineSubF_cons_none owner repo branch cd n c rest hm,
            inlineSubF_cons_none owner repo branch cd m c rest hm]
          congr 1
          refine ih m rest ?_ ?_
          · simp only [List.length_cons] at h1; omega
          · simp only [List.length_cons] at h2; omega

/-- A plain prefix without `[` passes through the inline scan. -/
theorem inlineSub_plain_front (owner repo branch cd s t : Str)
    (h : ∀ c ∈ s, c ≠ '[') :
    inlineSub owner repo branch cd (s ++ t) = s ++ inlineSub owner repo branch cd t := by
  induction s with
  | nil => simp [inlineSub]
  | cons c s2 ih =>
    have hstep : inlineSub owner repo branch cd ((c :: s2) ++ t)
        = c :: inlineSubF owner repo branch cd ((s2 ++ t).length) (s2 ++ t) := by
      unfold inlineSub
      have hshow : ((c :: s2) ++ t) = c :: (s2 ++ t) := rfl
      rw [hshow]
      have hl : (c :: (s2 ++ t)).length = Nat.succ ((s2 ++ t).length) := rfl
      rw [hl]
      exact inlineSubF_cons_none owner repo branch cd _ c (s2 ++ t)
        (matchInline_none c _ (h c (by simp)))
    rw [hstep]
    have heq : inlineSubF owner repo branch cd ((s2 ++ t).length) (s2 ++ t)
        = inlineSub owner repo branch cd (s2 ++ t) := rfl
    rw [heq, ih (fun x hx => h x (by simp [hx]))]
    simp

theorem matchInline_cons_eq (r1 : Str) :
    matchInline ('[' :: r1)
      = (match findSplitChar ']' r1 with
         | some (text, r2) =>
           (match r2 with
            | [] => none
            | c2 :: r3 =>
              if c2 == '(' then
                match findSplitChar ')' r3 with
                | some (inner, rest) =>
                  if inner == ([] : Str) then none else some (text, inner, rest)
                | none => none
              else none)
         | none => none) := by
  simp only [matchInline]
  rw [if_pos (by simp)]

/-- The inline regex finds exactly the rendered titleless link at a link
start. -/
theorem matchInline_render_none (text dest : Str) (t : Str)
    (htext : ∀ c ∈ text, c ≠ ']') (hdest : ∀ c ∈ dest, SafeChar c)
    (hne : dest ≠ []) :
    matchInline (renderItem (.link text dest none) ++ t)
      = some (text, dest, t) := by
  have hshape : renderItem (.link text dest none) ++ t
      = '[' :: (text ++ ']' :: '(' :: (dest ++ ')' :: t)) := by
    simp [renderItem]
  rw [hshape, matchInline_cons_eq]
  rw [findSplitChar_append ']' text ('(' :: (dest ++ ')' :: t)) htext]
  dsimp only
  rw [if_pos (by simp)]
  rw [findSplitChar_append ')' dest t (fun c hc => (hdest c hc).2.2.2.2.2.1)]
  dsimp only
  rw [if_neg (by simp [hne])]

/-- The inline regex finds exactly the rendered titled link at a link
start: the parenthesised content is the destination, a space, and the
double-quoted title. -/
theorem matchInline_render_some (text dest tt : Str) (t : Str)
    (htext : ∀ c ∈ text, c ≠ ']') (hdest : ∀ c ∈ dest, SafeChar c)
    (htt : ∀ c ∈ tt, c ≠ '"' ∧ c ≠ '\'' ∧ c ≠ ')' ∧ c ≠ ']') :
    matchInline (renderItem (.link text dest (some tt)) ++ t)
      = some (text, dest ++ ' ' :: '"' :: tt ++ ['"'], t) := by
  have hshape : renderItem (.link text dest (some tt)) ++ t
      = '[' :: (text ++ ']' :: '(' :: ((dest ++ ' ' :: '"' :: tt ++ ['"']) ++ ')' :: t)) := by
    simp [renderItem]
  rw [hshape, matchInline_cons_eq]
  rw [findSplitChar_append ']' text _ htext]
  dsimp only
  rw [if_pos (by simp)]
  rw [findSplitChar_append ')' (dest ++ ' ' :: '"' :: tt ++ ['"']) t ?hin]
  case hin =>
    intro c hc
    rcases List.mem_append.mp hc with h1 | h1
    · rcases List.mem_append.mp h1 with h2 | h2
      · exact (hdest c h2).2.2.2.2.2.1
      · rcases List.mem_cons.mp h2 with h3 | h2
        · simp [h3]
        rcases List.mem_cons.mp h2 with h3 | h2
        · simp [h3]
        exact (htt c h2).2.2.1
    · simp only [List.mem_singleton] at h1; simp [h1]
  dsimp only
  rw [if_neg (by simp)]

theorem pathStop_false_of_safe (c : Char) (h : SafeChar c) : pathStop c = false := by
  obtain ⟨h1, h2, h3, h4, h5, _, _⟩ := h
  simp [pathStop, h1, beq_eq_false_iff_ne.mpr h2, beq_eq_false_iff_ne.mpr h3,
    beq_eq_false_iff_ne.mpr h4, beq_eq_false_iff_ne.mpr h5]

/-- The path/title split on a bare destination. -/
theorem matchPathTitle_dest (dest : Str) (hdest : ∀ c ∈ dest, SafeChar c)
    (hne : dest ≠ []) : matchPathTitle dest = some (dest, none) := by
  have hall : ∀ c ∈ dest, (fun c => !(pathStop c)) c = true :=
    fun c hc => by simp [pathStop_false_of_safe c (hdest c hc)]
  simp only [matchPathTitle]
  rw [takeWhile_all _ _ hall, dropWhile_all _ _ hall]
  rw [if_neg (by simp [hne])]

/-- The path/title split on a destination followed by a double-quoted
title. -/
theorem matchPathTitle_dest_title (dest tt : Str)
    (hdest : ∀ c ∈ dest, SafeChar c) (hne : dest ≠ [])
    (htt : ∀ c ∈ tt, c ≠ '"' ∧ c ≠ '\'' ∧ c ≠ ')' ∧ c ≠ ']') :
    matchPathTitle (dest ++ ' ' :: '"' :: tt ++ ['"']) = some (dest, some tt) := by
  have hall : ∀ c ∈ dest, (fun c => !(pathStop c)) c = true :=
    fun c hc => by simp [pathStop_false_of_safe c (hdest c hc)]
  have hassoc : (dest ++ ' ' :: '"' :: tt) ++ ['"']
      = dest ++ (' ' :: '"' :: (tt ++ ['"'])) := by simp
  simp only [matchPathTitle]
  rw [hassoc]
  rw [takeWhile_append_all _ dest _ hall, dropWhile_append_all _ dest _ hall]
  rw [List.takeWhile_cons, List.dropWhile_cons]
  simp only [show (!pathStop ' ') = false from by decide, Bool.false_eq_true, if_false,
    List.append_nil]
  rw [if_neg (by simp [hne])]
  rw [if_pos (by decide : pyIsSpace ' ' = true)]
  have hd : List.dropWhile pyIsSpace (' ' :: '"' :: (tt ++ ['"'])) = '"' :: (tt ++ ['"']) := by
    simp [List.dropWhile_cons, show pyIsSpace ' ' = true from by decide,
      show pyIsSpace '"' = false from by decide]
  rw [hd]
  dsimp only
  rw [if_pos (by decide : quoteChar '"' = true)]
  have httall : ∀ c ∈ tt, (fun x => !(quoteChar x)) c = true := by
    intro c hc
    obtain ⟨h1, h2, _, _⟩ := htt c hc
    simp [quoteChar, beq_eq_false_iff_ne.mpr h1, beq_eq_false_iff_ne.mpr h2]
  rw [takeWhile_append_all _ tt _ httall, dropWhile_append_all _ tt _ httall]
  have hq2 : List.takeWhile (fun x => !(quoteChar x)) ['"'] = [] := by decide
  have hq3 : List.dropWhile (fun x => !(quoteChar x)) ['"'] = ['"'] := by decide
  rw [hq2, hq3]
  dsimp only
  rw [if_pos (by decide)]
  simp

/-- `replace_inline_link` on a rendered titleless inner: the destination
is converted and the link re-assembled. -/
theorem replaceInline_render_none (owner repo branch cd text dest : Str)
    (hdest : ∀ c ∈ dest, SafeChar c) (hne : dest ≠ []) :
    replace_inline_link owner repo branch cd text dest
      = renderItem (.link text (convert_to_remotedoc owner repo branch cd dest) none) := by
  unfold replace_inline_link
  rw [matchPathTitle_dest dest hdest hne]
  rfl

/-- `replace_inline_link` on a rendered titled inner: the destination is
converted, the title re-emitted between double quotes. -/
theorem replaceInline_render_some (owner repo branch cd text dest tt : Str)
    (hdest : ∀ c ∈ dest, SafeChar c) (hne : dest ≠ [])
    (htt : ∀ c ∈ tt, c ≠ '"' ∧ c ≠ '\'' ∧ c ≠ ')' ∧ c ≠ ']') (httne : tt ≠ []) :
    replace_inline_link owner repo branch cd text (dest ++ ' ' :: '"' :: tt ++ ['"'])
      = renderItem (.link text (convert_to_remotedoc owner repo branch cd dest) (some tt)) := by
  unfold replace_inline_link
  rw [matchPathTitle_dest_title dest tt hdest hne htt]
  simp only
  rw [if_neg (by simp [httne])]
  rfl

/-- One inline-scan step across a successful match. -/
theorem inlineSub_match_step (owner repo branch cd : Str) (c : Char)
    (rest text inner rest2 : Str)
    (h : matchInline (c :: rest) = some (text, inner, rest2)) :
    inlineSub owner repo branch cd (c :: rest)
      = replace_inline_link owner repo branch cd text inner
          ++ inlineSub owner repo branch cd rest2 := by
  unfold inlineSub
  have hl : (c :: rest).length = Nat.succ rest.length := rfl
  rw [hl, inlineSubF_cons_some owner repo branch cd rest.length c rest text inner rest2 h]
  congr 1
  apply inlineSubF_stable
  · obtain ⟨hsh, hin⟩ := matchInline_some _ _ _ _ h
    have hL := congrArg List.length hsh
    simp only [List.length_cons, List.length_append] at hL
    omega
  · exact Nat.le_refl _

/-- A rendered link is matched, converted and re-emitted by the inline
scan, which then continues after it. -/
theorem inlineSub_link_front (owner repo branch cd text dest : Str)
    (title : Option Str) (t : Str) (hwf : WfItem (.link text dest title)) :
    inlineSub owner repo branch cd (renderItem (.link text dest title) ++ t)
      = renderItem (convItem owner repo branch cd (.link text dest title))
          ++ inlineSub owner repo branch cd t := by
  obtain ⟨htext, hne, hdest, htitle⟩ := hwf
  cases title with
  | none =>
    have hm := matchInline_render_none text dest t htext hdest hne
    have hcons : renderItem (.link text dest none) ++ t
        = '[' :: (text ++ ']' :: '(' :: (dest ++ ')' :: t)) := by simp [renderItem]
    rw [hcons]
    rw [inlineSub_match_step owner repo branch cd '[' _ text dest t
      (by rw [← hcons]; exact hm)]
    rw [replaceInline_render_none owner repo branch cd text dest hdest hne]
    rfl
  | some tt =>
    obtain ⟨httne, htt⟩ := htitle tt rfl
    have hm := matchInline_render_some text dest tt t htext hdest htt
    have hcons : renderItem (.link text dest (some tt)) ++ t
        = '[' :: (text ++ ']' :: '(' :: ((dest ++ ' ' :: '"' :: tt ++ ['"']) ++ ')' :: t)) := by
      simp [renderItem]
    rw [hcons]
    rw [inlineSub_match_step owner repo branch cd '[' _ text
      (dest ++ ' ' :: '"' :: tt ++ ['"']) t (by rw [← hcons]; exact hm)]
    rw [replaceInline_render_some owner repo branch cd text dest tt hdest hne htt httne]
    rfl

/-- The inline pass over a rendered well-formed document converts each
link destination and leaves everything else unchanged. -/
theorem inlineSub_renderDoc (owner repo branch cd : Str) (doc : List MdItem)
    (hwf : ∀ i ∈ doc, WfItem i) :
    inlineSub owner repo branch cd (renderDoc doc)
      = renderDoc (doc.map (convItem owner repo branch cd)) := by
  induction doc with
  | nil => rfl
  | cons item rest ih =>
    have hrest := ih (fun i hi => hwf i (by simp [hi]))
    have hr : renderDoc (item :: rest) = renderItem item ++ renderDoc rest := by
      simp [renderDoc]
    have hr2 : renderDoc ((item :: rest).map (convItem owner repo branch cd))
        = renderItem (convItem owner repo branch cd item)
            ++ renderDoc (rest.map (convItem owner repo branch cd)) := by
      simp [renderDoc]
    rw [hr, hr2]
    match item with
    | .plain s =>
      have hs := hwf (.plain s) (by simp)
      rw [show renderItem (MdItem.plain s) = s from rfl]
      rw [inlineSub_plain_front owner repo branch cd s (renderDoc rest)
        (fun c hc => (hs c hc).1)]
      rw [hrest]
      rfl
    | .link text dest title =>
      rw [inlineSub_link_front owner repo branch cd text dest title (renderDoc rest)
        (hwf (.link text dest title) (by simp))]
      rw [hrest]

/-- Every `]` in the string is immediately followed by `(` — the bracket
shape of rendered documents, under which the reference-definition regex
can never match (it needs `]:`). -/
def closeOK : Str → Bool
  | [] => true
  | c :: rest =>
    if c == ']' then
      match rest with
      | [] => false
      | c2 :: _ => if c2 == '(' then closeOK rest else false
    else closeOK rest

theorem closeOK_tail (c : Char) (rest : Str) (h : closeOK (c :: rest) = true) :
    closeOK rest = true := by
  simp only [closeOK] at h
  split_ifs at h with hc
  · match rest, h with
    | [], h => simp at h
    | c2 :: r, h =>
      dsimp only at h
      split_ifs at h with hc2
      exact h
  · exact h

theorem closeOK_suffix (a b : Str) (h : closeOK (a ++ b) = true) :
    closeOK b = true := by
  induction a with
  | nil => simpa using h
  | cons c a2 ih => exact ih (closeOK_tail c (a2 ++ b) h)

theorem closeOK_dropWhile (p : Char → Bool) (s : Str) (h : closeOK s = true) :
    closeOK (s.dropWhile p) = true := by
  induction s with
  | nil => simpa using h
  | cons c rest ih =>
    rw [List.dropWhile_cons]
    split_ifs
    · exact ih (closeOK_tail c rest h)
    · exact h

theorem closeOK_bracket (r2 : Str) (h : closeOK (']' :: r2) = true) :
    ∃ r3, r2 = '(' :: r3 := by
  simp only [closeOK] at h
  rw [if_pos (by decide)] at h
  match r2, h with
  | [], h => simp at h
  | c2 :: r3, h =>
    dsimp only at h
    split_ifs at h with hc2
    exact ⟨r3, by rw [beq_iff_eq.mp hc2]⟩

/-- Bracket-free strings trivially satisfy `closeOK`, also as prefixes. -/
theorem closeOK_no_bracket_append (a t : Str) (ha : ∀ c ∈ a, c ≠ ']')
    (ht : closeOK t = true) : closeOK (a ++ t) = true := by
  induction a with
  | nil => simpa using ht
  | cons c a2 ih =>
    have hc : c ≠ ']' := ha c (by simp)
    show closeOK (c :: (a2 ++ t)) = true
    simp only [closeOK]
    rw [if_neg (by simp [hc])]
    exact ih (fun x hx => ha x (by simp [hx]))

theorem closeOK_bracket_cons (z : Str) (h : closeOK ('(' :: z) = true) :
    closeOK (']' :: '(' :: z) = true := by
  simp only [closeOK]
  rw [if_pos (by decide)]
  simp only [if_pos (by decide : ('(' == '(') = true)]
  exact h

/-- Under `closeOK` the reference regex cannot match: the character after
the reference's closing `]` is `(`, never the required `:`. -/
theorem tryRefMatch_none (owner repo branch cd s : Str) (h : closeOK s = true) :
    tryRefMatch owner repo branch cd s = none := by
  have h2 : closeOK (s.dropWhile pyIsSpace) = true := closeOK_dropWhile _ _ h
  unfold tryRefMatch
  match hs2 : s.dropWhile pyIsSpace with
  | [] => rfl
  | c :: r1 =>
    rw [hs2] at h2
    dsimp only
    by_cases hc : c = '['
    · rw [if_neg (by simp [hc])]
      match hsp : findSplitChar ']' r1 with
      | none => rfl
      | some (ref, r2) =>
        have hr1 : r1 = ref ++ ']' :: r2 := findSplitChar_eq ']' r1 ref r2 hsp
        have h3 : closeOK (']' :: r2) = true := by
          have h4 : closeOK r1 = true := closeOK_tail _ _ h2
          rw [hr1] at h4
          exact closeOK_suffix ref _ h4
        obtain ⟨r3, hr3⟩ := closeOK_bracket r2 h3
        simp only
        split_ifs
        · rfl
        · rw [hr3]
          dsimp only
          rw [if_pos (by decide : (!('(' == ':')) = true)]
    · rw [if_pos (by simp [hc])]

end Context9

namespace Context9

/-- On a `closeOK` string the reference pass is the identity: every line
either fails the reference regex and is copied verbatim. -/
theorem refSubF_eq_self (owner repo branch cd : Str) (n : Nat) :
    ∀ s : Str, closeOK s = true → refSubF owner repo branch cd n s = s := by
  induction n with
  | zero => intro s h; rfl
  | succ n ih =>
    intro s h
    simp only [refSubF]
    rw [tryRefMatch_none owner repo branch cd s h]
    dsimp only
    match hsp : findSplitChar '\n' s with
    | none => rfl
    | some (line, tail) =>
      have hs : s = line ++ '\n' :: tail := findSplitChar_eq '\n' s line tail hsp
      have htail : closeOK tail = true := by
        have h2 : closeOK (line ++ '\n' :: tail) = true := hs ▸ h
        exact closeOK_tail _ _ (closeOK_suffix line _ h2)
      dsimp only
      rw [ih tail htail]
      exact hs.symm

theorem refSub_eq_self (owner repo branch cd s : Str) (h : closeOK s = true) :
    refSub owner repo branch cd s = s :=
  refSubF_eq_self owner repo branch cd s.length s h

end Context9

namespace Context9

theorem takeUntilChar_append_all (sep : Char) (a b : Str) (h : ∀ c ∈ a, c ≠ sep) :
    takeUntilChar sep (a ++ b) = a ++ takeUntilChar sep b := by
  induction a with
  | nil => simp
  | cons c rest ih =>
    simp only [List.cons_append, takeUntilChar]
    rw [if_neg (by simp [h c (by simp)])]
    simp only [List.append_eq]
    rw [ih (fun x hx => h x (by simp [hx]))]

/-- A `remotedoc://`-prefixed destination is returned unchanged by
`convert_to_remotedoc`: it is not an anchor, and its path part keeps the
scheme prefix (the scheme holds no `?` or `#`), so the absolute-URL guard
fires. -/
theorem conv_remotedoc (o r b cd X : Str) :
    convert_to_remotedoc o r b cd (remotedocScheme ++ X) = remotedocScheme ++ X := by
  have h1 : takeUntilChar '?' (remotedocScheme ++ X)
      = remotedocScheme ++ takeUntilChar '?' X :=
    takeUntilChar_append_all _ _ _ (by decide)
  have h2 : takeUntilChar '#' (remotedocScheme ++ takeUntilChar '?' X)
      = remotedocScheme ++ takeUntilChar '#' (takeUntilChar '?' X) :=
    takeUntilChar_append_all _ _ _ (by decide)
  have h3 : is_remotedoc_url (remotedocScheme
      ++ takeUntilChar '#' (takeUntilChar '?' X)) = true := by
    unfold is_remotedoc_url
    rw [List.isPrefixOf_iff_prefix]
    exact List.prefix_append _ _
  have h0 : is_anchor_link (remotedocScheme ++ X) = false := rfl
  unfold convert_to_remotedoc
  simp only [h0, Bool.false_eq_true, if_false, h1, h2, h3, Bool.or_true, if_true]

/-- Every output of `convert_to_remotedoc` is the input itself or a
`remotedoc://`-prefixed string. -/
theorem conv_cases (o r b cd d : Str) :
    convert_to_remotedoc o r b cd d = d ∨
    ∃ X, convert_to_remotedoc o r b cd d = remotedocScheme ++ X := by
  unfold convert_to_remotedoc
  dsimp only
  split_ifs with h1 h2 h3 h4 h5 h6
  · exact Or.inl rfl
  · exact Or.inl rfl
  · exact Or.inl rfl
  · exact Or.inr ⟨_, by simp only [List.append_assoc, List.cons_append]; try rfl⟩
  · exact Or.inr ⟨_, by simp only [List.append_assoc, List.cons_append]; try rfl⟩
  · exact Or.inr ⟨_, by simp only [List.append_assoc, List.cons_append]; try rfl⟩
  · exact Or.inr ⟨_, by simp only [List.append_assoc, List.cons_append]; try rfl⟩

/-- `convert_to_remotedoc` is idempotent on every destination. -/
theorem convert_to_remotedoc_idem (o r b cd d : Str) :
    convert_to_remotedoc o r b cd (convert_to_remotedoc o r b cd d)
      = convert_to_remotedoc o r b cd d := by
  rcases conv_cases o r b cd d with h | ⟨X, h⟩
  · rw [h]; exact h
  · rw [h]; exact conv_remotedoc o r b cd X

theorem convItem_idem (o r b cd : Str) (i : MdItem) :
    convItem o r b cd (convItem o r b cd i) = convItem o r b cd i := by
  match i with
  | .plain s => rfl
  | .link text dest title => simp only [convItem, convert_to_remotedoc_idem]

end Context9

namespace Context9

/-! #### Character provenance of the rewritten destinations -/

theorem mem_takeUntilChar (sep : Char) (s : Str) (c : Char)
    (h : c ∈ takeUntilChar sep s) : c ∈ s := by
  induction s with
  | nil => simp [takeUntilChar] at h
  | cons c2 rest ih =>
    simp only [takeUntilChar] at h
    split_ifs at h with hsep
    · simp at h
    · rcases List.mem_cons.mp h with h | h
      · simp [h]
      · simp [ih h]

theorem mem_afterFirstChar (sep : Char) (s : Str) (c : Char)
    (h : c ∈ afterFirstChar sep s) : c ∈ s := by
  induction s with
  | nil => simp [afterFirstChar] at h
  | cons c2 rest ih =>
    simp only [afterFirstChar] at h
    split_ifs at h with hsep
    · simp [h]
    · simp [ih h]

theorem mem_splitOnSlash (s : Str) (c : Char) :
    ∀ p, p ∈ splitOnSlash s → c ∈ p → c ∈ s := by
  induction s with
  | nil =>
    intro p hp hc
    simp [splitOnSlash] at hp
    subst hp
    simp at hc
  | cons c2 rest ih =>
    intro p hp hc
    simp only [splitOnSlash] at hp
    split_ifs at hp with h2
    · rcases List.mem_cons.mp hp with h | h
      · subst h; simp at hc
      · exact List.mem_cons_of_mem _ (ih p h hc)
    · match hrec : splitOnSlash rest with
      | seg :: segs =>
        rw [hrec] at hp
        rcases List.mem_cons.mp hp with h | h
        · subst h
          rcases List.mem_cons.mp hc with h | h
          · simp [h]
          · exact List.mem_cons_of_mem _ (ih seg (by rw [hrec]; simp) h)
        · exact List.mem_cons_of_mem _ (ih p (by rw [hrec]; exact List.mem_cons_of_mem _ h) hc)
      | [] =>
        rw [hrec] at hp
        simp at hp
        subst hp
        simp at hc
        simp [hc]

theorem mem_normalizeStack (segs : List Str) (p : Str) :
    ∀ acc, p ∈ normalizeStack segs acc → p ∈ segs ∨ p ∈ acc := by
  induction segs with
  | nil =>
    intro acc h
    right
    simpa [normalizeStack] using h
  | cons s rest ih =>
    intro acc h
    simp only [normalizeStack] at h
    split_ifs at h with h1 h2 h3
    · rcases ih acc h with h | h
      · exact Or.inl (by simp [h])
      · exact Or.inr h
    · rcases ih acc.tail h with h | h
      · exact Or.inl (by simp [h])
      · exact Or.inr (List.tail_subset _ h)
    · rcases ih acc h with h | h
      · exact Or.inl (by simp [h])
      · exact Or.inr h
    · rcases ih (s :: acc) h with h | h
      · exact Or.inl (by simp [h])
      · rcases List.mem_cons.mp h with h | h
        · exact Or.inl (by simp [h])
        · exact Or.inr h

theorem mem_pathParts (s p : Str) (hp : p ∈ pathParts s) (c : Char) (hc : c ∈ p) :
    c ∈ s :=
  mem_splitOnSlash s c p (List.mem_of_mem_filter hp) hc

theorem mem_pathParent (s : Str) (c : Char) (h : c ∈ pathParent s) :
    c ∈ s ∨ c = '/' ∨ c = '.' := by
  unfold pathParent at h
  match hd : (pathParts s).dropLast with
  | [] =>
    rw [hd] at h
    simp at h
    exact Or.inr (Or.inr h)
  | q :: qs =>
    rw [hd] at h
    rcases mem_joinSlash _ c h with h | ⟨p, hp, hc⟩
    · exact Or.inr (Or.inl h)
    · have hp2 : p ∈ pathParts s :=
        List.dropLast_subset _ (by rw [hd]; exact hp)
      exact Or.inl (mem_pathParts s p hp2 c hc)

theorem mem_pathJoin (dir part : Str) (c : Char) (h : c ∈ pathJoin dir part) :
    c ∈ dir ∨ c ∈ part ∨ c = '/' ∨ c = '.' := by
  unfold pathJoin at h
  have hjoin : ∀ (l : List Str), c ∈ joinSlash l →
      (∀ p ∈ l, p ∈ pathParts dir ∨ p ∈ pathParts part) →
      c ∈ dir ∨ c ∈ part ∨ c = '/' ∨ c = '.' := by
    intro l hl hsub
    rcases mem_joinSlash l c hl with h | ⟨p, hp, hc⟩
    · exact Or.inr (Or.inr (Or.inl h))
    · rcases hsub p hp with h | h
      · exact Or.inl (mem_pathParts dir p h c hc)
      · exact Or.inr (Or.inl (mem_pathParts part p h c hc))
  match part, h with
  | c2 :: rest, h =>
    dsimp only at h
    split_ifs at h with h2
    · rcases List.mem_cons.mp h with h | h
      · exact Or.inr (Or.inr (Or.inl h))
      · exact hjoin _ h (fun p hp => Or.inr hp)
    · match hcat : pathParts dir ++ pathParts (c2 :: rest), h with
      | [], h =>
        simp at h
        exact Or.inr (Or.inr (Or.inr h))
      | q :: qs, h =>
        refine hjoin _ h (fun p hp => ?_)
        have hp2 : p ∈ pathParts dir ++ pathParts (c2 :: rest) := by
          rw [hcat]; exact hp
        exact List.mem_append.mp hp2
  | [], h =>
    dsimp only at h
    match hcat : pathParts dir ++ pathParts ([] : Str), h with
    | [], h =>
      simp at h
      exact Or.inr (Or.inr (Or.inr h))
    | q :: qs, h =>
      refine hjoin _ h (fun p hp => ?_)
      have hp2 : p ∈ pathParts dir ++ pathParts ([] : Str) := by
        rw [hcat]; exact hp
      exact List.mem_append.mp hp2

end Context9

namespace Context9

/-- Every character of a resolved destination comes from the current
directory, the destination itself, or the separators the resolver
inserts. -/
theorem mem_resolve (cd d : Str) (c : Char) (h : c ∈ resolve_relative_path cd d) :
    c ∈ cd ∨ c ∈ d ∨ c = '/' ∨ c = '.' ∨ c = '?' ∨ c = '#' := by
  have hpp : ∀ x, x ∈ takeUntilChar '#' (takeUntilChar '?' d) → x ∈ d :=
    fun x hx => mem_takeUntilChar _ _ _ (mem_takeUntilChar _ _ _ hx)
  have hnorm : ∀ (ap : Str), (∀ x ∈ ap, x ∈ cd ∨ x ∈ d ∨ x = '/' ∨ x = '.') →
      ∀ x ∈ joinSlash (normalizeStack (splitOnSlash ap) []),
        x ∈ cd ∨ x ∈ d ∨ x = '/' ∨ x = '.' := by
    intro ap hap x hx
    rcases mem_joinSlash _ x hx with hx | ⟨p, hp, hxp⟩
    · exact Or.inr (Or.inr (Or.inl hx))
    · rcases mem_normalizeStack _ p [] hp with hp | hp
      · exact hap x (mem_splitOnSlash ap x p hp hxp)
      · simp at hp
  have hapJ : ∀ x ∈ pathJoin cd (takeUntilChar '#' (takeUntilChar '?' d)),
      x ∈ cd ∨ x ∈ d ∨ x = '/' ∨ x = '.' := by
    intro x hx
    rcases mem_pathJoin cd _ x hx with hx | hx | hx | hx
    · exact Or.inl hx
    · exact Or.inr (Or.inl (hpp x hx))
    · exact Or.inr (Or.inr (Or.inl hx))
    · exact Or.inr (Or.inr (Or.inr hx))
  have hapP : ∀ x ∈ takeUntilChar '#' (takeUntilChar '?' d),
      x ∈ cd ∨ x ∈ d ∨ x = '/' ∨ x = '.' :=
    fun x hx => Or.inr (Or.inl (hpp x hx))
  have widen : ∀ x : Char, (x ∈ cd ∨ x ∈ d ∨ x = '/' ∨ x = '.') →
      x ∈ cd ∨ x ∈ d ∨ x = '/' ∨ x = '.' ∨ x = '?' ∨ x = '#' := by
    intro x hx
    rcases hx with hx | hx | hx | hx
    · exact Or.inl hx
    · exact Or.inr (Or.inl hx)
    · exact Or.inr (Or.inr (Or.inl hx))
    · exact Or.inr (Or.inr (Or.inr (Or.inl hx)))
  have hsplitQ : ∀ (np : Str) (sep : Char), sep = '?' ∨ sep = '#' →
      (∀ x ∈ np, x ∈ cd ∨ x ∈ d ∨ x = '/' ∨ x = '.') →
      c ∈ np ++ sep :: afterFirstChar sep d →
      c ∈ cd ∨ c ∈ d ∨ c = '/' ∨ c = '.' ∨ c = '?' ∨ c = '#' := by
    intro np sep hsep hnp hc
    rcases List.mem_append.mp hc with hc | hc
    · exact widen c (hnp c hc)
    · rcases List.mem_cons.mp hc with hc | hc
      · rcases hsep with hsep | hsep
        · exact Or.inr (Or.inr (Or.inr (Or.inr (Or.inl (hsep ▸ hc)))))
        · exact Or.inr (Or.inr (Or.inr (Or.inr (Or.inr (hsep ▸ hc)))))
      · exact Or.inr (Or.inl (mem_afterFirstChar sep d c hc))
  unfold resolve_relative_path at h
  dsimp only at h
  split_ifs at h with h1 h2 h3 h4 h5
  · exact Or.inr (Or.inl h)
  · exact Or.inr (Or.inl h)
  · exact hsplitQ _ '?' (Or.inl rfl) (hnorm _ hapJ) h
  · exact hsplitQ _ '#' (Or.inr rfl) (hnorm _ hapJ) h
  · exact hsplitQ _ '?' (Or.inl rfl) (hnorm _ hapP) h
  · exact hsplitQ _ '#' (Or.inr rfl) (hnorm _ hapP) h
  · exact widen c (hnorm _ hapJ c h)
  · exact widen c (hnorm _ hapP c h)

end Context9

namespace Context9

/-- Every character of a converted destination comes from the scheme, the
owner/repo/branch, the current directory, the destination, or the
inserted separators. -/
theorem mem_conv (o r b cd d : Str) (c : Char) (h : c ∈ convert_to_remotedoc o r b cd d) :
    c ∈ remotedocScheme ∨ c ∈ o ∨ c ∈ r ∨ c ∈ b ∨ c ∈ cd ∨ c ∈ d ∨
      c = '/' ∨ c = '.' ∨ c = '?' ∨ c = '#' := by
  have hres : ∀ x : Char, x ∈ resolve_relative_path cd d →
      x ∈ remotedocScheme ∨ x ∈ o ∨ x ∈ r ∨ x ∈ b ∨ x ∈ cd ∨ x ∈ d ∨
        x = '/' ∨ x = '.' ∨ x = '?' ∨ x = '#' := by
    intro x hx
    rcases mem_resolve cd d x hx with hx | hx | hx | hx | hx | hx
    · exact Or.inr (Or.inr (Or.inr (Or.inr (Or.inl hx))))
    · exact Or.inr (Or.inr (Or.inr (Or.inr (Or.inr (Or.inl hx)))))
    · exact Or.inr (Or.inr (Or.inr (Or.inr (Or.inr (Or.inr (Or.inl hx))))))
    · exact Or.inr (Or.inr (Or.inr (Or.inr (Or.inr (Or.inr (Or.inr (Or.inl hx)))))))
    · exact Or.inr (Or.inr (Or.inr (Or.inr (Or.inr (Or.inr (Or.inr (Or.inr (Or.inl hx))))))))
    · exact Or.inr (Or.inr (Or.inr (Or.inr (Or.inr (Or.inr (Or.inr (Or.inr (Or.inr hx))))))))
  have hslash : ∀ x : Char, x = '/' →
      x ∈ remotedocScheme ∨ x ∈ o ∨ x ∈ r ∨ x ∈ b ∨ x ∈ cd ∨ x ∈ d ∨
        x = '/' ∨ x = '.' ∨ x = '?' ∨ x = '#' :=
    fun x hx => Or.inr (Or.inr (Or.inr (Or.inr (Or.inr (Or.inr (Or.inl hx))))))
  have hbase : ∀ x : Char,
      x ∈ remotedocScheme ++ o ++ '/' :: r ++ '/' :: b ++ '/' :: resolve_relative_path cd d →
      x ∈ remotedocScheme ∨ x ∈ o ∨ x ∈ r ∨ x ∈ b ∨ x ∈ cd ∨ x ∈ d ∨
        x = '/' ∨ x = '.' ∨ x = '?' ∨ x = '#' := by
    intro x hx
    rcases List.mem_append.mp hx with hx | hx
    · rcases List.mem_append.mp hx with hx | hx
      · rcases List.mem_append.mp hx with hx | hx
        · rcases List.mem_append.mp hx with hx | hx
          · exact Or.inl hx
          · exact Or.inr (Or.inl hx)
        · rcases List.mem_cons.mp hx with hx | hx
          · exact hslash x hx
          · exact Or.inr (Or.inr (Or.inl hx))
      · rcases List.mem_cons.mp hx with hx | hx
        · exact hslash x hx
        · exact Or.inr (Or.inr (Or.inr (Or.inl hx)))
    · rcases List.mem_cons.mp hx with hx | hx
      · exact hslash x hx
      · exact hres x hx
  unfold convert_to_remotedoc at h
  dsimp only at h
  split_ifs at h with h1 h2 h3 h4 h5 h6
  · exact Or.inr (Or.inr (Or.inr (Or.inr (Or.inr (Or.inl h)))))
  · exact Or.inr (Or.inr (Or.inr (Or.inr (Or.inr (Or.inl h)))))
  · exact Or.inr (Or.inr (Or.inr (Or.inr (Or.inr (Or.inl h)))))
  · exact hbase c h
  · rcases List.mem_append.mp h with h | h
    · exact hbase c h
    · rcases List.mem_cons.mp h with h | h
      · exact Or.inr (Or.inr (Or.inr (Or.inr (Or.inr (Or.inr (Or.inr (Or.inr (Or.inl h))))))))
      · exact Or.inr (Or.inr (Or.inr (Or.inr (Or.inr (Or.inl
          (mem_afterFirstChar '?' d c h))))))
  · rcases List.mem_append.mp h with h | h
    · exact hbase c h
    · rcases List.mem_cons.mp h with h | h
      · exact Or.inr (Or.inr (Or.inr (Or.inr (Or.inr (Or.inr (Or.inr (Or.inr (Or.inr h))))))))
      · exact Or.inr (Or.inr (Or.inr (Or.inr (Or.inr (Or.inl
          (mem_afterFirstChar '#' d c h))))))
  · exact hbase c h

/-- The converted destination is destination-safe whenever all its
ingredients are. -/
theorem conv_safe (o r b cd d : Str) (ho : SafeStr o) (hr : SafeStr r)
    (hb : SafeStr b) (hcd : SafeStr cd) (hd : SafeStr d) :
    SafeStr (convert_to_remotedoc o r b cd d) := by
  intro c hc
  have hscheme : SafeStr remotedocScheme := by decide
  rcases mem_conv o r b cd d c hc with h | h | h | h | h | h | h | h | h | h
  · exact hscheme c h
  · exact ho c h
  · exact hr c h
  · exact hb c h
  · exact hcd c h
  · exact hd c h
  · subst h; decide
  · subst h; decide
  · subst h; decide
  · subst h; decide

/-- The converted destination of a non-empty destination is non-empty. -/
theorem conv_ne_nil (o r b cd d : Str) (hd : d ≠ []) :
    convert_to_remotedoc o r b cd d ≠ [] := by
  rcases conv_cases o r b cd d with h | ⟨X, h⟩
  · rw [h]; exact hd
  · rw [h]
    have hlen : remotedocScheme.length = 12 := rfl
    intro hc
    have h2 := congrArg List.length hc
    rw [List.length_append, hlen] at h2
    simp at h2

/-- One rewriting pass keeps an item well formed: the text and title are
untouched and the converted destination is non-empty and safe. -/
theorem wfItem_convItem (o r b cd : Str) (ho : SafeStr o) (hr : SafeStr r)
    (hb : SafeStr b) (hcd : SafeStr cd) (i : MdItem) (hwf : WfItem i) :
    WfItem (convItem o r b cd i) := by
  match i with
  | .plain s => exact hwf
  | .link text dest title =>
    obtain ⟨ht, hne, hdest, htitle⟩ := hwf
    exact ⟨ht, conv_ne_nil o r b cd dest hne,
      conv_safe o r b cd dest ho hr hb hcd hdest, htitle⟩

end Context9

namespace Context9

/-- A rendered well-formed item keeps the bracket shape: appended before a
`closeOK` tail, the result is still `closeOK`. -/
theorem closeOK_renderItem_append (i : MdItem) (hwf : WfItem i) (t : Str)
    (ht : closeOK t = true) : closeOK (renderItem i ++ t) = true := by
  match i with
  | .plain s =>
    exact closeOK_no_bracket_append s t (fun c hc => (hwf c hc).2) ht
  | .link text dest title =>
    obtain ⟨htext, hne, hdest, htitle⟩ := hwf
    have hinner : ∀ (a : Str), (∀ c ∈ a, c ≠ ']') →
        closeOK (('[' :: text) ++ ']' :: '(' :: (a ++ t)) = true := by
      intro a ha
      apply closeOK_no_bracket_append ('[' :: text) _
        (fun c hc => by
          rcases List.mem_cons.mp hc with hc | hc
          · subst hc; decide
          · exact htext c hc)
      apply closeOK_bracket_cons
      exact closeOK_no_bracket_append ('(' :: a) t
        (fun c hc => by
          rcases List.mem_cons.mp hc with hc | hc
          · subst hc; decide
          · exact ha c hc) ht
    cases title with
    | none =>
      have h := hinner (dest ++ [')']) (fun c hc => by
        rcases List.mem_append.mp hc with hc | hc
        · exact (hdest c hc).2.2.2.2.2.2
        · simp at hc; subst hc; decide)
      have heq : renderItem (.link text dest none) ++ t
          = ('[' :: text) ++ ']' :: '(' :: ((dest ++ [')']) ++ t) := by
        simp [renderItem, List.append_assoc]
      rw [heq]
      exact h
    | some tt =>
      obtain ⟨httne, htt⟩ := htitle tt rfl
      have h := hinner (dest ++ ' ' :: '"' :: tt ++ ['"', ')']) (fun c hc => by
        rcases List.mem_append.mp hc with hc | hc
        · rcases List.mem_append.mp hc with hc | hc
          · exact (hdest c hc).2.2.2.2.2.2
          · rcases List.mem_cons.mp hc with hc | hc
            · subst hc; decide
            · rcases List.mem_cons.mp hc with hc | hc
              · subst hc; decide
              · exact (htt c hc).2.2.2
        · simp at hc
          rcases hc with hc | hc <;> (subst hc; decide))
      have heq : renderItem (.link text dest (some tt)) ++ t
          = ('[' :: text) ++ ']' :: '(' :: ((dest ++ ' ' :: '"' :: tt ++ ['"', ')']) ++ t) := by
        simp [renderItem, List.append_assoc]
      rw [heq]
      exact h

/-- A rendered well-formed document satisfies `closeOK`. -/
theorem closeOK_renderDoc (doc : List MdItem) (hwf : ∀ i ∈ doc, WfItem i) :
    closeOK (renderDoc doc) = true := by
  induction doc with
  | nil => rfl
  | cons i rest ih =>
    have h : renderDoc (i :: rest) = renderItem i ++ renderDoc rest := by
      simp [renderDoc]
    rw [h]
    exact closeOK_renderItem_append i (hwf i (by simp)) _
      (ih (fun j hj => hwf j (by simp [hj])))

end Context9

namespace Context9

theorem mem_dropWhile (p : Char → Bool) (s : Str) (c : Char)
    (h : c ∈ s.dropWhile p) : c ∈ s := by
  induction s with
  | nil => simpa using h
  | cons c2 rest ih =>
    rw [List.dropWhile_cons] at h
    split_ifs at h
    · exact List.mem_cons_of_mem _ (ih h)
    · exact h

theorem mem_stripSlashes (s : Str) (c : Char) (h : c ∈ stripSlashes s) : c ∈ s := by
  unfold stripSlashes at h
  rw [List.mem_reverse] at h
  have h2 := mem_dropWhile _ _ _ h
  rw [List.mem_reverse] at h2
  exact mem_dropWhile _ _ _ h2

/-- The anchor directory `rewrite_relative_paths` computes from its
`current_path` argument (lines 21-56 of the source, factored out). -/
def currentDirOf (current_path : Str) : Str :=
  let cp := stripSlashes current_path
  let cp := if cp == ([] : Str) then ['.'] else cp
  let cd := if cp == ['.'] then ['.'] else pathParent cp
  if cd == ['.'] then ([] : Str) else cd

theorem rewrite_relative_paths_eq (content o r b cp : Str) :
    rewrite_relative_paths content o r b cp
      = if content == ([] : Str) then content
        else refSub o r b (currentDirOf cp)
          (inlineSub o r b (currentDirOf cp) content) := rfl

theorem currentDirOf_safe (cp : Str) (h : SafeStr cp) :
    SafeStr (currentDirOf cp) := by
  have hps : SafeStr (pathParent (stripSlashes cp)) := by
    intro c hc
    rcases mem_pathParent _ c hc with hc | hc | hc
    · exact h c (mem_stripSlashes cp c hc)
    · subst hc; decide
    · subst hc; decide
  unfold currentDirOf
  dsimp only
  split_ifs
  all_goals first
    | exact (by decide : SafeStr ([] : Str))
    | exact (by decide : SafeStr (['.'] : Str))
    | exact (by decide : SafeStr (pathParent (['.'] : Str)))
    | exact hps

/-- One pass of the rewriter over a rendered well-formed document: the
inline pass converts every destination and the reference pass is the
identity on the result. -/
theorem rewrite_once_renderDoc (o r b cp : Str) (doc : List MdItem)
    (hwf : ∀ i ∈ doc, WfItem i) (ho : SafeStr o) (hr : SafeStr r)
    (hb : SafeStr b) (hcp : SafeStr cp) (hne : renderDoc doc ≠ []) :
    rewrite_relative_paths (renderDoc doc) o r b cp
      = renderDoc (doc.map (convItem o r b (currentDirOf cp))) := by
  have hcds : SafeStr (currentDirOf cp) := currentDirOf_safe cp hcp
  rw [rewrite_relative_paths_eq]
  rw [if_neg (by simp only [beq_iff_eq]; exact hne)]
  rw [inlineSub_renderDoc o r b (currentDirOf cp) doc hwf]
  exact refSub_eq_self o r b (currentDirOf cp) _
    (closeOK_renderDoc _ (fun i hi => by
      rcases List.mem_map.mp hi with ⟨j, hj, hji⟩
      exact hji ▸ wfItem_convItem o r b (currentDirOf cp) ho hr hb hcds j (hwf j hj)))

end Context9

namespace Context9

instance decTitleCond (title : Option Str) (D : Str → Prop) [∀ t, Decidable (D t)] :
    Decidable (∀ t, title = some t → D t) :=
  match title with
  | none => isTrue (fun _ h => nomatch h)
  | some tt =>
    if h : D tt then isTrue (fun _ ht => (Option.some.inj ht) ▸ h)
    else isFalse (fun hall => h (hall tt rfl))

instance (i : MdItem) : Decidable (WfItem i) :=
  match i with
  | .plain s => inferInstanceAs (Decidable (∀ c ∈ s, c ≠ '[' ∧ c ≠ ']'))
  | .link text dest title =>
    inferInstanceAs (Decidable ((∀ c ∈ text, c ≠ ']') ∧ dest ≠ [] ∧
      (∀ c ∈ dest, SafeChar c) ∧
      (∀ t, title = some t →
        t ≠ [] ∧ ∀ c ∈ t, c ≠ '"' ∧ c ≠ '\'' ∧ c ≠ ')' ∧ c ≠ ']')))

/-- C6: on a rendered document whose items are well formed — plain text
free of brackets between links whose destinations are non-empty runs of
destination-safe characters — and with destination-safe owner, repo,
branch and current path, running `rewrite_relative_paths` twice produces
the same output as running it once. -/
theorem rewrite_relative_paths_idempotent (owner repo branch current_path : Str)
    (doc : List MdItem) (hwf : ∀ i ∈ doc, WfItem i)
    (ho : SafeStr owner) (hr : SafeStr repo) (hb : SafeStr branch)
    (hcp : SafeStr current_path) :
    rewrite_relative_paths
      (rewrite_relative_paths (renderDoc doc) owner repo branch current_path)
      owner repo branch current_path
      = rewrite_relative_paths (renderDoc doc) owner repo branch current_path := by
  have hcds : SafeStr (currentDirOf current_path) :=
    currentDirOf_safe current_path hcp
  by_cases hne : renderDoc doc = []
  · have h0 : rewrite_relative_paths (renderDoc doc) owner repo branch current_path
        = renderDoc doc := by
      rw [rewrite_relative_paths_eq, if_pos (by simp [hne])]
    rw [h0]
    exact h0
  · have h1 := rewrite_once_renderDoc owner repo branch current_path doc hwf
      ho hr hb hcp hne
    rw [h1]
    have hwf2 : ∀ i ∈ doc.map (convItem owner repo branch (currentDirOf current_path)),
        WfItem i := fun i hi => by
      rcases List.mem_map.mp hi with ⟨j, hj, hji⟩
      exact hji ▸ wfItem_convItem owner repo branch (currentDirOf current_path)
        ho hr hb hcds j (hwf j hj)
    by_cases hne2 : renderDoc (doc.map (convItem owner repo branch
        (currentDirOf current_path))) = []
    · rw [rewrite_relative_paths_eq, if_pos (by simp [hne2])]
    · rw [rewrite_once_renderDoc owner repo branch current_path _ hwf2
        ho hr hb hcp hne2]
      rw [List.map_map]
      congr 1
      exact List.map_congr_left
        (fun i _ => convItem_idem owner repo branch (currentDirOf current_path) i)

/-- The document of the idempotence witness. -/
def c6doc : List MdItem :=
  [.plain "See ".toList,
   .link "guide".toList "docs/g.md".toList none,
   .plain " and ".toList,
   .link "x".toList "http://y".toList (some "T".toList)]

theorem rewrite_relative_paths_idempotent_witness :
    (∀ i ∈ c6doc, WfItem i) ∧ SafeStr aliceStr ∧ SafeStr docsStr ∧
    SafeStr mainStr ∧ SafeStr readmeStr ∧
    rewrite_relative_paths
      (rewrite_relative_paths (renderDoc c6doc) aliceStr docsStr mainStr readmeStr)
      aliceStr docsStr mainStr readmeStr
      = rewrite_relative_paths (renderDoc c6doc) aliceStr docsStr mainStr readmeStr :=
  ⟨by decide, by decide, by decide, by decide, by decide,
   rewrite_relative_paths_idempotent aliceStr docsStr mainStr readmeStr c6doc
     (by decide) (by decide) (by decide) (by decide) (by decide)⟩

end Context9
